import Mathlib

/-!
Shallow embedding of the NiFi-Utilities repository (two Python source files:
`NiFi-flow.json-parser.py` and `diagnostics/nifi_diag.py`) and proofs about it.

JSON documents are modelled by the mutual inductive family `JVal`/`JArr`/`JObj`
(numbers are modelled as integers; the claims under consideration exercise no
floating-point values).  Python exceptions are modelled by `Except PyErr`:
a Python expression that can raise is embedded as a function returning
`Except PyErr α`, and Python's dynamic `in`, subscript, `.get`, iteration and
truthiness are embedded by `pyContains`, `pySub`, `jget`, `pyIterate`, `truthy`
below, matching CPython semantics on JSON-shaped values.
-/

set_option maxRecDepth 10000

namespace NiFi

/-- Python exception kinds raised by the embedded code. -/
inductive PyErr where
  | typeError
  | keyError
  | attributeError
  deriving DecidableEq, Repr

mutual
/-- A JSON value as produced by Python's `json.load`. -/
inductive JVal where
  | jnull
  | jbool (b : Bool)
  | jnum (n : Int)
  | jstr (s : String)
  | jarr (xs : JArr)
  | jobj (fs : JObj)
  deriving DecidableEq, Repr

/-- A JSON array (list of values), as its own inductive so that all
recursions over documents are structural. -/
inductive JArr where
  | nil
  | cons (v : JVal) (tl : JArr)
  deriving DecidableEq, Repr

/-- A JSON object: an insertion-ordered association list, as produced by
`json.load` (which yields a Python `dict`; keys are unique there, and all
lookups below are first-match, which coincides with `dict` semantics). -/
inductive JObj where
  | nil
  | cons (k : String) (v : JVal) (tl : JObj)
  deriving DecidableEq, Repr
end

open JVal JArr JObj

/-- The values of a JSON array as a Lean list. -/
def JArr.toList : JArr → List JVal
  | .nil => []
  | .cons v tl => v :: tl.toList

/-- The entries of a JSON object as a Lean list. -/
def JObj.toList : JObj → List (String × JVal)
  | .nil => []
  | .cons k v tl => (k, v) :: tl.toList

/-- First-match lookup in an object: Python `d[k]` / `k in d` on a `dict`. -/
def lookupObj : JObj → String → Option JVal
  | .nil, _ => none
  | .cons k v tl, key => if k = key then some v else lookupObj tl key

/-- Python `k in d` for a `dict`. -/
def containsObj (fs : JObj) (key : String) : Bool :=
  (lookupObj fs key).isSome

/-- Membership of a string among the values of a JSON array: Python
`k in lst` compares `k` for equality with each element, and a JSON value
equals a Python `str` only when it is that string. -/
def arrHasStr : JArr → String → Bool
  | .nil, _ => false
  | .cons v tl, key => (v = jstr key) || arrHasStr tl key

/-- Whether `needle` is an initial segment of `hay`. -/
def startsWithL : List Char → List Char → Bool
  | [], _ => true
  | _ :: _, [] => false
  | c :: cs, d :: ds => (c = d) && startsWithL cs ds

/-- Substring test on lists of characters (used for Python `sub in s`). -/
def listIsInfix (needle : List Char) : List Char → Bool
  | [] => needle.isEmpty
  | hay@(_ :: t) => startsWithL needle hay || listIsInfix needle t

/-- Python `sub in s` for strings: substring containment. -/
def strContains (hay needle : String) : Bool :=
  listIsInfix needle.data hay.data

/-- Python `key in v` on an arbitrary JSON value: `dict` → key membership,
`list` → element equality, `str` → substring, anything else → `TypeError`. -/
def pyContains (v : JVal) (key : String) : Except PyErr Bool :=
  match v with
  | jobj fs => .ok (containsObj fs key)
  | jarr xs => .ok (arrHasStr xs key)
  | jstr s => .ok (strContains s key)
  | _ => .error .typeError

/-- Python `v[key]` with a string key: only a `dict` supports it
(`KeyError` when absent); every other type raises `TypeError`. -/
def pySub (v : JVal) (key : String) : Except PyErr JVal :=
  match v with
  | jobj fs =>
    match lookupObj fs key with
    | some w => .ok w
    | none => .error .keyError
  | _ => .error .typeError

/-- Python `d.get(key, default)` on an object (association list). -/
def jget (fs : JObj) (key : String) (dflt : JVal) : JVal :=
  match lookupObj fs key with
  | some w => w
  | none => dflt

/-- Python iteration `for x in v`: a `list` yields its elements, a `dict`
yields its keys (as strings), a `str` yields its characters (as one-character
strings); other types raise `TypeError`. -/
def pyIterate (v : JVal) : Except PyErr (List JVal) :=
  match v with
  | jarr xs => .ok xs.toList
  | jobj fs => .ok (fs.toList.map (fun kv => jstr kv.1))
  | jstr s => .ok (s.data.map (fun c => jstr (String.mk [c])))
  | _ => .error .typeError

/-- Python truthiness of a JSON value. -/
def truthy : JVal → Bool
  | jnull => false
  | jbool b => b
  | jnum n => n ≠ 0
  | jstr s => ¬ s.isEmpty
  | jarr xs => xs ≠ .nil
  | jobj fs => fs ≠ .nil

mutual
/-- Python `str(v)` on a JSON value (`repr` for nested containers).
Escape sequences inside `repr` of strings are not modelled: the embedding is
faithful for values whose strings contain no quote, backslash or
non-printable characters, which covers everything exercised here. -/
def pyStr : JVal → String
  | jnull => "None"
  | jbool true => "True"
  | jbool false => "False"
  | jnum n => toString n
  | jstr s => s
  | jarr xs => "[" ++ pyStrArr xs ++ "]"
  | jobj fs => "\x7b" ++ pyStrObj fs ++ "\x7d"

/-- Python `repr(v)` (how a value prints inside a container). -/
def pyRepr : JVal → String
  | jstr s => "'" ++ s ++ "'"
  | jnull => "None"
  | jbool true => "True"
  | jbool false => "False"
  | jnum n => toString n
  | jarr xs => "[" ++ pyStrArr xs ++ "]"
  | jobj fs => "\x7b" ++ pyStrObj fs ++ "\x7d"

/-- Comma-separated `repr`s of the elements of a list. -/
def pyStrArr : JArr → String
  | .nil => ""
  | .cons v .nil => pyRepr v
  | .cons v tl => pyRepr v ++ ", " ++ pyStrArr tl

/-- Comma-separated `'key': repr` entries of a dict. -/
def pyStrObj : JObj → String
  | .nil => ""
  | .cons k v .nil => "'" ++ k ++ "': " ++ pyRepr v
  | .cons k v tl => "'" ++ k ++ "': " ++ pyRepr v ++ ", " ++ pyStrObj tl
end

/-! ## Value sanitizer (`clean_data`, `clean_property_value`,
`clean_sensitive_property` from `NiFi-flow.json-parser.py`). -/

/-- Characters removed by the first substitution in `clean_data`:
`re.sub(r'[\x00-\x08\x0B-\x1F\x7F]', '', _)`.  Note the range `\x0B-\x1F`
contains the carriage return `\x0D`. -/
def isCtrl (c : Char) : Bool :=
  (c.toNat ≤ 8) || (11 ≤ c.toNat && c.toNat ≤ 31) || (c.toNat = 127)

/-- A carriage return or newline (the class `[\r\n]` of the second
substitution in `clean_data`). -/
def isCRLF (c : Char) : Bool :=
  c = '\r' || c = '\n'

/-- Python's whitespace (`re` class `\s` on `str`, and the set stripped by
`str.strip()`): ASCII whitespace, the C1 separators, NEL, and the Unicode
space characters. -/
def pySpace (c : Char) : Bool :=
  c = ' ' || c = '\t' || c = '\n' || c = '\x0B' || c = '\x0C' || c = '\r' ||
  c = '\x1C' || c = '\x1D' || c = '\x1E' || c = '\x1F' ||
  c = '\x85' || c = '\xA0' || c = '\u1680' ||
  ('\u2000' ≤ c && c ≤ '\u200A') ||
  c = '\u2028' || c = '\u2029' || c = '\u202F' || c = '\u205F' || c = '\u3000'

/-- `re.sub(p+, ' ', _)` for a character class `p`: replace every maximal
run of `p`-characters by a single space.  The boolean records whether the
previous character was part of a run. -/
def collapseAux (p : Char → Bool) : Bool → List Char → List Char
  | _, [] => []
  | inRun, c :: cs =>
    if p c then
      if inRun then collapseAux p true cs
      else ' ' :: collapseAux p true cs
    else c :: collapseAux p false cs

/-- Replace every maximal run of `p`-characters by one space. -/
def collapseRuns (p : Char → Bool) (l : List Char) : List Char :=
  collapseAux p false l

/-- Drop a maximal trailing run of `p`-characters. -/
def dropTrailing (p : Char → Bool) : List Char → List Char
  | [] => []
  | c :: cs =>
    match dropTrailing p cs with
    | [] => if p c then [] else [c]
    | r => c :: r

/-- Python `str.strip()` on a character list. -/
def pyStrip (l : List Char) : List Char :=
  dropTrailing pySpace (l.dropWhile pySpace)

/-- The character-list body of `clean_data` applied to a string: remove the
control characters, fold `[\r\n]+` then `\s+` runs to single spaces, strip,
and finally delete any null bytes (`.replace('\x00', '')`). -/
def cleanList (l : List Char) : List Char :=
  (pyStrip (collapseRuns pySpace (collapseRuns isCRLF
    (l.filter (fun c => !(isCtrl c)))))).filter (fun c => c ≠ '\x00')

/-- `clean_data` restricted to string inputs. -/
def cleanStr (s : String) : String :=
  String.mk (cleanList s.data)

/-- `NiFiFlowParser.clean_data`: `None` becomes the empty string, every other
value is stringified and cleaned. -/
def clean_data (v : JVal) : String :=
  match v with
  | jnull => ""
  | _ => cleanStr (pyStr v)

/-- Double every `"` character (`str.replace('"', '""')`; the code guards
the call with `if '"' in cleaned`, which does not change the result). -/
def escapeQuotes (s : String) : String :=
  String.mk (s.data.flatMap (fun c => if c = '"' then ['"', '"'] else [c]))

/-- `NiFiFlowParser.clean_property_value` with its default `max_length=1000`:
clean, truncate with a marker, then CSV-escape quotes. -/
def clean_property_value (v : JVal) : String :=
  let cleaned := clean_data v
  let truncated :=
    if cleaned.length > 1000 then
      String.mk (cleaned.data.take 1000) ++ "...[TRUNCATED]"
    else cleaned
  escapeQuotes truncated

/-- The sensitive-name denylist of `clean_sensitive_property`. -/
def sensitiveList : List String :=
  ["password", "secret", "key", "credential", "token"]

/-- Python `str.lower()` (character-wise; agrees with CPython on ASCII). -/
def pyLower (s : String) : String :=
  String.mk (s.data.map Char.toLower)

/-- Whether a property name case-insensitively contains a denylist entry
(`any(sensitive in prop_name.lower() for sensitive in [...])`). -/
def isSensitiveName (name : String) : Bool :=
  sensitiveList.any (fun s => strContains (pyLower name) s)

/-- `NiFiFlowParser.clean_sensitive_property`. -/
def clean_sensitive_property (propName : String) (propValue : JVal) : String :=
  if isSensitiveName propName then
    if truthy propValue then "***SENSITIVE***" else "Not Set"
  else clean_property_value propValue

/-! ## Status classifier (`get_processor_state`). -/

/-- Python `str.upper()` (character-wise; agrees with CPython on ASCII). -/
def pyUpper (s : String) : String :=
  String.mk (s.data.map Char.toUpper)

/-- The `state_mapping` dictionary lookup `state_mapping.get(state, state)`
in `get_processor_state`. -/
def stateMapping (s : String) : String :=
  if s = "RUNNING" then "RUNNING"
  else if s = "RUN" then "RUNNING"
  else if s = "STARTED" then "RUNNING"
  else if s = "START" then "RUNNING"
  else if s = "STOPPED" then "STOPPED"
  else if s = "STOP" then "STOPPED"
  else if s = "DISABLED" then "DISABLED"
  else if s = "INVALID" then "DISABLED"
  else if s = "VALIDATING" then "STOPPED"
  else if s = "VALID" then "STOPPED"
  else s

/-- The normalization tail of `get_processor_state` applied to a string
state: `state_mapping.get(self.clean_data(state).upper(), ...)`. -/
def normalizeStateStr (s : String) : String :=
  stateMapping (pyUpper (cleanStr s))

/-- `current[key]` inside the `try`-guarded nested-path walk of
`get_processor_state`: `KeyError` and `TypeError` are both caught, so a
failed hop is simply `none`. -/
def trySubQuiet (v : JVal) (key : String) : Option JVal :=
  match v with
  | jobj fs => lookupObj fs key
  | _ => none

/-- Walk one nested path (`for key in path: current = current[key]`). -/
def walkPath (v : JVal) : List String → Option JVal
  | [] => some v
  | k :: rest =>
    match trySubQuiet v k with
    | some w => walkPath w rest
    | none => none

/-- The fixed `nested_paths` list of Method 5 of `get_processor_state`. -/
def nestedPaths : List (List String) :=
  [["status", "runStatus"],
   ["status", "aggregateSnapshot", "runStatus"],
   ["component", "status", "runStatus"],
   ["component", "runStatus"],
   ["config", "schedulingStrategy"]]

/-- Method 5 of `get_processor_state`: walk the nested paths in order and
take the first truthy result (`if current: state = current; break`); a
falsy or failed walk falls through to the next path. -/
def firstTruthyPath (p : JVal) : List (List String) → Option JVal
  | [] => none
  | path :: rest =>
    match walkPath p path with
    | some v => if truthy v then some v else firstTruthyPath p rest
    | none => firstTruthyPath p rest

/-- Method 3 of `get_processor_state` when `status` is a dict:
`status.get('runStatus', status.get('aggregateSnapshot', {}).get('runStatus', 'UNKNOWN'))`.
Python evaluates the inner default eagerly, so a non-dict `aggregateSnapshot`
raises `AttributeError` even when `runStatus` is present. -/
def statusDictState (sfs : JObj) : Except PyErr JVal :=
  let inner : Except PyErr JVal :=
    match lookupObj sfs "aggregateSnapshot" with
    | none => .ok (jstr "UNKNOWN")
    | some (jobj afs) => .ok (jget afs "runStatus" (jstr "UNKNOWN"))
    | some _ => .error .attributeError
  match inner with
  | .error e => .error e
  | .ok iv => .ok (jget sfs "runStatus" iv)

/-- Method 2 of `get_processor_state` (the `component` envelope): returns
the (pre-normalization) state value, starting from the initial `"UNKNOWN"`. -/
def componentState (component : JVal) : Except PyErr JVal :=
  match pyContains component "state" with
  | .error e => .error e
  | .ok true => pySub component "state"
  | .ok false =>
    match pyContains component "config" with
    | .error e => .error e
    | .ok false => .ok (jstr "UNKNOWN")
    | .ok true =>
      match pySub component "config" with
      | .error e => .error e
      | .ok cfg =>
        match pyContains cfg "schedulingStrategy" with
        | .error e => .error e
        | .ok false => .ok (jstr "UNKNOWN")
        | .ok true =>
          match cfg with
          | jobj gfs =>
            if jget gfs "schedulingStrategy" jnull = jstr "DISABLED" then
              .ok (jstr "DISABLED")
            else .ok (jstr "UNKNOWN")
          | _ => .error .attributeError

/-- The raw (pre-normalization) state value selected by the `if`/`elif`
chain of `get_processor_state`; the initial value is the Python string
`"UNKNOWN"`. -/
def rawProcessorState (p : JVal) : Except PyErr JVal :=
  match pyContains p "state" with
  | .error e => .error e
  | .ok true => pySub p "state"
  | .ok false =>
    match pyContains p "component" with
    | .error e => .error e
    | .ok true =>
      match pySub p "component" with
      | .error e => .error e
      | .ok component => componentState component
    | .ok false =>
      match pyContains p "status" with
      | .error e => .error e
      | .ok true =>
        match pySub p "status" with
        | .error e => .error e
        | .ok status =>
          match status with
          | jobj sfs => statusDictState sfs
          | _ => .ok (jstr (pyStr status))
      | .ok false =>
        match pyContains p "runStatus" with
        | .error e => .error e
        | .ok true => pySub p "runStatus"
        | .ok false =>
          match firstTruthyPath p nestedPaths with
          | some v => .ok v
          | none => .ok (jstr "UNKNOWN")

/-- `NiFiFlowParser.get_processor_state`: select the raw state value, then
normalize it if it is a string, else return the literal `"UNKNOWN"`. -/
def get_processor_state (p : JVal) : Except PyErr String :=
  match rawProcessorState p with
  | .error e => .error e
  | .ok (jstr s) => .ok (normalizeStateStr s)
  | .ok _ => .ok "UNKNOWN"

/-! ## Record normalizer (`parse_processor`). -/

/-- One normalized relationship entry of a processor record. -/
structure Rel where
  name : String
  description : String
  autoTerminate : JVal
  deriving DecidableEq, Repr

/-- One normalized processor record (the `processor_info` dict built by
`parse_processor`).  `properties` is an insertion-ordered association list,
like the Python dict it models. -/
structure ProcRec where
  id : String
  name : String
  type : String
  group : String
  state : String
  scheduling_strategy : String
  concurrent_tasks : JVal
  scheduling_period : String
  penalty_duration : String
  yield_duration : String
  bulletin_level : String
  auto_terminated_relationships : List String
  properties : List (String × String)
  relationships : List Rel
  deriving DecidableEq, Repr

/-- Decidable equality of `Except` results, for evaluating the embedding on
concrete inputs. -/
instance exceptDecEq {ε α : Type} [DecidableEq ε] [DecidableEq α] :
    DecidableEq (Except ε α) := fun a b =>
  match a, b with
  | .ok x, .ok y =>
    if h : x = y then .isTrue (by rw [h]) else .isFalse (by simp [h])
  | .ok _, .error _ => .isFalse (by simp)
  | .error _, .ok _ => .isFalse (by simp)
  | .error e, .error f =>
    if h : e = f then .isTrue (by rw [h]) else .isFalse (by simp [h])

/-- Error-propagating map over a list. -/
def mapME {α β : Type} (f : α → Except PyErr β) : List α → Except PyErr (List β)
  | [] => .ok []
  | x :: t =>
    match f x with
    | .error e => .error e
    | .ok y =>
      match mapME f t with
      | .error e => .error e
      | .ok ys => .ok (y :: ys)

/-- Python dict assignment `d[k] = v` on an association list: replace in
place when the key exists (keeping its original position), else append. -/
def upsertProp : List (String × String) → String → String → List (String × String)
  | [], k, v => [(k, v)]
  | (k0, v0) :: t, k, v =>
    if k0 = k then (k0, v) :: t else (k0, v0) :: upsertProp t k v

/-- `for key, value in props.items(): d[clean_data(key)] = clean_property_value(value)`
starting from the accumulated dict `acc`. -/
def cleanProps (acc : List (String × String)) : JObj → List (String × String)
  | .nil => acc
  | .cons k v tl => cleanProps (upsertProp acc (cleanStr k) (clean_property_value v)) tl

/-- Build a JSON array from a list of strings (used for the Python list of
already-cleaned strings that `config.get('autoTerminatedRelationships', _)`
defaults to). -/
def strsToJArr : List String → JArr
  | [] => .nil
  | s :: t => .cons (jstr s) (strsToJArr t)

/-- The `properties` extraction of `parse_processor` (lines 132-144):
`processor['properties']` when present and truthy, else
`processor['config']['properties']` when reachable; `.items()` on a
non-dict raises `AttributeError`, membership on an unsuitable `config`
value raises `TypeError`. -/
def extractProps (fs : JObj) : Except PyErr (List (String × String)) :=
  if containsObj fs "properties" && truthy (jget fs "properties" jnull) then
    match lookupObj fs "properties" with
    | some (jobj pfs) => .ok (cleanProps [] pfs)
    | some _ => .error .attributeError
    | none => .error .keyError
  else
    match lookupObj fs "config" with
    | none => .ok []
    | some cfg =>
      match pyContains cfg "properties" with
      | .error e => .error e
      | .ok false => .ok []
      | .ok true =>
        match pySub cfg "properties" with
        | .error e => .error e
        | .ok pv =>
          match pv with
          | jobj pfs => .ok (cleanProps [] pfs)
          | _ => .error .attributeError

/-- One relationship entry (`rel.get(...)`; a non-dict element raises
`AttributeError`). -/
def parseRel (rel : JVal) : Except PyErr Rel :=
  match rel with
  | jobj rfs =>
    .ok { name := clean_data (jget rfs "name" (jstr "Unknown")),
          description := clean_data (jget rfs "description" (jstr "No description")),
          autoTerminate := jget rfs "autoTerminate" (jbool false) }
  | _ => .error .attributeError

/-- The `relationships` extraction of `parse_processor` (lines 147-155). -/
def extractRels (fs : JObj) : Except PyErr (List Rel) :=
  match lookupObj fs "relationships" with
  | none => .ok []
  | some w =>
    match pyIterate w with
    | .error e => .error e
    | .ok items => mapME parseRel items

/-- The `component`-envelope update of `parse_processor` (lines 157-183),
applied to the record built so far.  `component.get` / `config.get` on a
non-dict raises `AttributeError`. -/
def applyComponent (fs : JObj) (r : ProcRec) : Except PyErr ProcRec :=
  match lookupObj fs "component" with
  | none => .ok r
  | some comp =>
    match comp with
    | jobj cfs =>
      let r1 := { r with
        id := clean_data (jget cfs "id" (jstr r.id)),
        name := clean_data (jget cfs "name" (jstr r.name)),
        type := clean_data (jget cfs "type" (jstr r.type)) }
      match lookupObj cfs "config" with
      | none => .ok r1
      | some cfgv =>
        match cfgv with
        | jobj gfs =>
          match pyIterate (jget gfs "autoTerminatedRelationships"
              (jarr (strsToJArr r1.auto_terminated_relationships))) with
          | .error e => .error e
          | .ok autoItems =>
            let r2 := { r1 with
              concurrent_tasks := jget gfs "concurrentlySchedulableTaskCount" r1.concurrent_tasks,
              scheduling_period := clean_data (jget gfs "schedulingPeriod" (jstr r1.scheduling_period)),
              penalty_duration := clean_data (jget gfs "penaltyDuration" (jstr r1.penalty_duration)),
              yield_duration := clean_data (jget gfs "yieldDuration" (jstr r1.yield_duration)),
              bulletin_level := clean_data (jget gfs "bulletinLevel" (jstr r1.bulletin_level)),
              auto_terminated_relationships := autoItems.map clean_data }
            match lookupObj gfs "properties" with
            | none => .ok r2
            | some (jobj pfs) => .ok { r2 with properties := cleanProps [] pfs }
            | some _ => .error .attributeError
        | _ => .error .attributeError
    | _ => .error .attributeError

/-- `NiFiFlowParser.parse_processor` with the `group` field left empty; the
group name only ever enters the record through `clean_data(group_name)`
(a total computation), so it is filled in by `parse_processor` below.
Evaluation order matches the Python source: `get_processor_state` first,
then the record literal (whose `autoTerminatedRelationships` iteration can
raise), then the `properties`, `relationships` and `component` blocks. -/
def parseProcessorCore (p : JVal) : Except PyErr ProcRec :=
  match get_processor_state p with
  | .error e => .error e
  | .ok st =>
    match p with
    | jobj fs =>
      match pyIterate (jget fs "autoTerminatedRelationships" (jarr .nil)) with
      | .error e => .error e
      | .ok autoItems =>
        let r0 : ProcRec := {
          id := clean_data (jget fs "identifier" (jget fs "id" (jstr "Unknown"))),
          name := clean_data (jget fs "name" (jstr "Unnamed Processor")),
          type := clean_data (jget fs "type" (jget fs "class" (jstr "Unknown Type"))),
          group := "",
          state := st,
          scheduling_strategy := clean_data (jget fs "schedulingStrategy" (jstr "Unknown")),
          concurrent_tasks := jget fs "concurrentlySchedulableTaskCount"
            (jget fs "maxConcurrentTasks" (jnum 1)),
          scheduling_period := clean_data (jget fs "schedulingPeriod"
            (jget fs "runSchedule" (jstr "Unknown"))),
          penalty_duration := clean_data (jget fs "penaltyDuration" (jstr "Unknown")),
          yield_duration := clean_data (jget fs "yieldDuration" (jstr "Unknown")),
          bulletin_level := clean_data (jget fs "bulletinLevel" (jstr "Unknown")),
          auto_terminated_relationships := autoItems.map clean_data,
          properties := [],
          relationships := [] }
        match extractProps fs with
        | .error e => .error e
        | .ok props =>
          match extractRels fs with
          | .error e => .error e
          | .ok rels =>
            applyComponent fs { r0 with properties := props, relationships := rels }
    | _ => .error .attributeError

/-- `NiFiFlowParser.parse_processor`.  The `group_name` argument is usually
a string, but `extract_processors_from_group` passes a child group's raw
`name` value through unchanged when the parent is the root, so it is a
`JVal` here; it only ever enters the record through `clean_data(group_name)`. -/
def parse_processor (p : JVal) (groupName : JVal) : Except PyErr ProcRec :=
  match parseProcessorCore p with
  | .error e => .error e
  | .ok r => .ok { r with group := clean_data groupName }

/-! ## Record extractor and document shape detector
(`extract_processors_from_group`, `find_processors_recursively`,
`parse_flow`). -/

/-- The `processors` part of `extract_processors_from_group` (lines 95-98):
`if 'processors' in process_group: for processor in process_group['processors']: ...`.
Iterating a dict yields its keys and iterating a string yields its
characters, each of which is then handed to `parse_processor`. -/
def procPart (fs : JObj) (nm : JVal) : Except PyErr (List ProcRec) :=
  if containsObj fs "processors" then
    match lookupObj fs "processors" with
    | some v =>
      match pyIterate v with
      | .error e => .error e
      | .ok items => mapME (fun it => parse_processor it nm) items
    | none => .error .keyError
  else .ok []

mutual
/-- `NiFiFlowParser.extract_processors_from_group`.  On a non-dict node,
Python's `'processors' in process_group` tests element membership for a
list, substring containment for a string, and raises `TypeError`
otherwise; a successful membership test on a list or string is followed by
a string subscript, which raises `TypeError`. -/
def extract_processors_from_group (g : JVal) (nm : JVal) : Except PyErr (List ProcRec) :=
  match g with
  | jobj fs =>
    match procPart fs nm with
    | .error e => .error e
    | .ok ps =>
      match pgPart fs nm with
      | .error e => .error e
      | .ok cs => .ok (ps ++ cs)
  | jarr xs =>
    if arrHasStr xs "processors" then .error .typeError
    else if arrHasStr xs "processGroups" then .error .typeError
    else .ok []
  | jstr s =>
    if strContains s "processors" then .error .typeError
    else if strContains s "processGroups" then .error .typeError
    else .ok []
  | _ => .error .typeError
termination_by structural g

/-- Scan the object's entries for the first `processGroups` key (Python's
membership test followed by `process_group['processGroups']`) and process
its children; absent key means no children. -/
def pgPart (o : JObj) (nm : JVal) : Except PyErr (List ProcRec) :=
  match o with
  | .nil => .ok []
  | .cons k w tl =>
    if k = "processGroups" then iterChildren w nm
    else pgPart tl nm
termination_by structural o

/-- `for child_group in process_group['processGroups']`: iterating a
non-empty dict or string yields strings, whose subsequent
`child_group.get('name', ...)` raises `AttributeError`; iterating a
non-iterable raises `TypeError`. -/
def iterChildren (w : JVal) (nm : JVal) : Except PyErr (List ProcRec) :=
  match w with
  | jarr xs => childrenArr xs nm
  | jobj .nil => .ok []
  | jobj (.cons _ _ _) => .error .attributeError
  | jstr s => if s.isEmpty then .ok [] else .error .attributeError
  | _ => .error .typeError
termination_by structural w

/-- The loop body over child groups: look up the child's name, build
`f"{group_name}/{child_group_name}"` (or pass the raw name through when the
parent is the root sentinel) and recurse; a non-dict child's
`.get('name', ...)` raises `AttributeError`. -/
def childrenArr (a : JArr) (nm : JVal) : Except PyErr (List ProcRec) :=
  match a with
  | .nil => .ok []
  | .cons c tl =>
    match c with
    | jobj cfs =>
      let childName := jget cfs "name" (jstr "Unnamed Group")
      let full : JVal :=
        if nm ≠ jstr "Root" then jstr (pyStr nm ++ "/" ++ pyStr childName)
        else childName
      match extract_processors_from_group c full with
      | .error e => .error e
      | .ok rs =>
        match childrenArr tl nm with
        | .error e => .error e
        | .ok rest => .ok (rs ++ rest)
    | _ => .error .attributeError
termination_by structural a
end

/-- The in-place part of `find_processors_recursively` on a dict node:
`if 'processors' in data and isinstance(data['processors'], list):` parse
each element with the current path as group name; any other shape
contributes nothing here. -/
def findProcsHere (fs : JObj) (path : String) : Except PyErr (List ProcRec) :=
  match lookupObj fs "processors" with
  | some (jarr xs) => mapME (fun it => parse_processor it (jstr path)) xs.toList
  | _ => .ok []

mutual
/-- `NiFiFlowParser.find_processors_recursively`: the unguided fallback.
A dict's `processors` entry is parsed only when it is a list
(`isinstance(data['processors'], list)`); recursion then descends into
every entry whose key is not `processors`, and into every list element;
scalar nodes contribute nothing. -/
def find_processors_recursively (d : JVal) (path : String) : Except PyErr (List ProcRec) :=
  match d with
  | jobj fs =>
    match findProcsHere fs path with
    | .error e => .error e
    | .ok ps =>
      match findObj fs path with
      | .error e => .error e
      | .ok rest => .ok (ps ++ rest)
  | jarr xs => findArr xs path 0
  | _ => .ok []

/-- `for key, value in data.items(): if key != 'processors': recurse` with
the path extended by `.key`. -/
def findObj : JObj → String → Except PyErr (List ProcRec)
  | .nil, _ => .ok []
  | .cons k v tl, path =>
    if k = "processors" then findObj tl path
    else
      match find_processors_recursively v (path ++ "." ++ k) with
      | .error e => .error e
      | .ok rs =>
        match findObj tl path with
        | .error e => .error e
        | .ok rest => .ok (rs ++ rest)

/-- `for i, item in enumerate(data): recurse` with the path extended by
`[i]`. -/
def findArr : JArr → String → Nat → Except PyErr (List ProcRec)
  | .nil, _, _ => .ok []
  | .cons v tl, path, i =>
    match find_processors_recursively v (path ++ "[" ++ toString i ++ "]") with
    | .error e => .error e
    | .ok rs =>
      match findArr tl path (i + 1) with
      | .error e => .error e
      | .ok rest => .ok (rs ++ rest)
end

/-- The `if`/`elif` envelope chain of `parse_flow` (lines 333-356), without
the empty-result fallback. -/
def parseFlowChain (d : JVal) : Except PyErr (List ProcRec) :=
  match pyContains d "flowContents" with
  | .error e => .error e
  | .ok true =>
    match pySub d "flowContents" with
    | .error e => .error e
    | .ok fc => extract_processors_from_group fc (jstr "Root")
  | .ok false =>
    match pyContains d "processGroupFlow" with
    | .error e => .error e
    | .ok true =>
      match pySub d "processGroupFlow" with
      | .error e => .error e
      | .ok pgf =>
        match pySub pgf "flow" with
        | .error e => .error e
        | .ok fc => extract_processors_from_group fc (jstr "Root")
    | .ok false =>
      match pyContains d "versionedFlowSnapshot" with
      | .error e => .error e
      | .ok true =>
        match pySub d "versionedFlowSnapshot" with
        | .error e => .error e
        | .ok vfs =>
          match pySub vfs "flowContents" with
          | .error e => .error e
          | .ok fc => extract_processors_from_group fc (jstr "Root")
      | .ok false =>
        match pyContains d "flow" with
        | .error e => .error e
        | .ok true =>
          match pySub d "flow" with
          | .error e => .error e
          | .ok fc => extract_processors_from_group fc (jstr "Root")
        | .ok false =>
          match pyContains d "processors" with
          | .error e => .error e
          | .ok true =>
            match pySub d "processors" with
            | .error e => .error e
            | .ok v =>
              match pyIterate v with
              | .error e => .error e
              | .ok items => mapME (fun it => parse_processor it (jstr "Root")) items
          | .ok false => find_processors_recursively d "root"

/-- `NiFiFlowParser.parse_flow`: falsy documents yield no records; the
envelope chain runs, and an empty (but non-raising) result triggers the
recursive fallback (lines 358-360). -/
def parse_flow (d : JVal) : Except PyErr (List ProcRec) :=
  if ¬ truthy d then .ok []
  else
    match parseFlowChain d with
    | .error e => .error e
    | .ok ps =>
      if ps.isEmpty then find_processors_recursively d "root"
      else .ok ps

/-- Convenience constructor for JSON arrays in concrete examples. -/
def jarrOf (l : List JVal) : JVal :=
  jarr (l.foldr .cons .nil)

/-- Convenience constructor for object entry lists in concrete examples. -/
def jobjL (l : List (String × JVal)) : JObj :=
  l.foldr (fun kv t => .cons kv.1 kv.2 t) .nil

/-- Convenience constructor for JSON objects in concrete examples. -/
def jobjOf (l : List (String × JVal)) : JVal :=
  jobj (jobjL l)

/-- Whether a JSON value is a Python `str`. -/
def isStrJ : JVal → Bool
  | jstr _ => true
  | _ => false

/-- Whether a JSON value is a Python `dict`. -/
def isObjJ : JVal → Bool
  | jobj _ => true
  | _ => false

/-- Whether an embedded Python computation succeeded. -/
def isOkE {α : Type} : Except PyErr α → Bool
  | .ok _ => true
  | .error _ => false

/-! ## Well-shapedness predicates: sufficient conditions under which the
record normalizer and the structured traversal never raise. -/

/-- An optional value that, when present, is a dict. -/
def optIsObjOrAbsent : Option JVal → Bool
  | none => true
  | some (jobj _) => true
  | some _ => false

/-- An optional value that, when present, is a list. -/
def optIsArrOrAbsent : Option JVal → Bool
  | none => true
  | some (jarr _) => true
  | some _ => false

/-- The `status` value, when a dict, must have a dict (or absent)
`aggregateSnapshot`, because `status.get('aggregateSnapshot', {}).get(...)`
is evaluated eagerly. -/
def statusOK (fs : JObj) : Bool :=
  match lookupObj fs "status" with
  | some (jobj sfs) => optIsObjOrAbsent (lookupObj sfs "aggregateSnapshot")
  | _ => true

/-- Every element of a `relationships` list must be a dict (`rel.get`). -/
def relsArrOK : JArr → Bool
  | .nil => true
  | .cons (jobj _) tl => relsArrOK tl
  | .cons _ _ => false

/-- The `relationships` value, when present, is a list of dicts. -/
def relsOK (fs : JObj) : Bool :=
  match lookupObj fs "relationships" with
  | none => true
  | some (jarr xs) => relsArrOK xs
  | some _ => false

/-- A `config` block, when present, is a dict whose `properties` (if any)
is a dict and whose `autoTerminatedRelationships` (if any) is a list. -/
def cfgBlockOK : Option JVal → Bool
  | none => true
  | some (jobj gfs) =>
    optIsObjOrAbsent (lookupObj gfs "properties") &&
    optIsArrOrAbsent (lookupObj gfs "autoTerminatedRelationships")
  | some _ => false

/-- The `component` envelope, when present, is a dict with a well-shaped
`config` block. -/
def componentOK (fs : JObj) : Bool :=
  match lookupObj fs "component" with
  | none => true
  | some (jobj cfs) => cfgBlockOK (lookupObj cfs "config")
  | some _ => false

/-- A record (dict) on which every field access of `parse_processor` and
`get_processor_state` degrades to its default instead of raising: any key
may be absent, and the container-valued keys, when present, have the
expected container type. -/
def wellShapedProc (fs : JObj) : Bool :=
  statusOK fs && relsOK fs &&
  optIsObjOrAbsent (lookupObj fs "properties") &&
  cfgBlockOK (lookupObj fs "config") &&
  optIsArrOrAbsent (lookupObj fs "autoTerminatedRelationships") &&
  componentOK fs

/-- Every element of a `processors` list is a well-shaped record dict. -/
def procsArrOK : JArr → Bool
  | .nil => true
  | .cons (jobj fs) tl => wellShapedProc fs && procsArrOK tl
  | .cons _ _ => false

/-- The `processors` value, when present, is a list of well-shaped records. -/
def procsOK : Option JVal → Bool
  | none => true
  | some (jarr xs) => procsArrOK xs
  | some _ => false

mutual
/-- A well-shaped group tree: a dict whose `processors` entry (if any) is a
list of well-shaped records and whose `processGroups` entry (if any) is a
list of well-shaped group dicts. -/
def goodGroupV : JVal → Bool
  | jobj fs => procsOK (lookupObj fs "processors") && pgOK fs
  | _ => false
termination_by structural g => g

/-- Scan for the `processGroups` entry and check its children. -/
def pgOK : JObj → Bool
  | .nil => true
  | .cons k w tl => if k = "processGroups" then goodChildren w else pgOK tl
termination_by structural o => o

/-- The `processGroups` value is a list of well-shaped groups. -/
def goodChildren : JVal → Bool
  | jarr xs => goodChildrenArr xs
  | _ => false
termination_by structural w => w

/-- Conjunction of `goodGroupV` over the elements of a list. -/
def goodChildrenArr : JArr → Bool
  | .nil => true
  | .cons c tl => goodGroupV c && goodChildrenArr tl
termination_by structural a => a
end

/-! ## The status classifier as worded by the specification (used to compare
the code against the claim that the first rule yielding a *non-empty* value
wins).  These definitions follow the claim's words, not the source. -/

/-- Spec-worded rule 2: the `component` envelope's status field, or a
scheduling strategy of exactly `DISABLED` inside its config. -/
def specRule2 (fs : JObj) : Option JVal :=
  match lookupObj fs "component" with
  | some (jobj cfs) =>
    match lookupObj cfs "state" with
    | some v => some v
    | none =>
      match lookupObj cfs "config" with
      | some (jobj gfs) =>
        if lookupObj gfs "schedulingStrategy" = some (jstr "DISABLED") then
          some (jstr "DISABLED")
        else none
      | _ => none
  | _ => none

/-- Spec-worded rule 3: the `status` object's run indicator, one or two
levels deep. -/
def specRule3 (fs : JObj) : Option JVal :=
  match lookupObj fs "status" with
  | some (jobj sfs) =>
    match lookupObj sfs "runStatus" with
    | some v => some v
    | none =>
      match lookupObj sfs "aggregateSnapshot" with
      | some (jobj afs) => lookupObj afs "runStatus"
      | _ => none
  | some v => some (jstr (pyStr v))
  | none => none

/-- The status classifier as the claim words it: consult the rules in
priority order and return the result of the first rule that yields a
non-empty value; a rule yielding no (or an empty) value falls through to
the later rules. -/
def classifySpecC2 (p : JVal) : String :=
  match p with
  | jobj fs =>
    let rules : List (Option JVal) :=
      [lookupObj fs "state", specRule2 fs, specRule3 fs,
       lookupObj fs "runStatus", firstTruthyPath (jobj fs) nestedPaths]
    match rules.findSome? (fun o =>
        match o with
        | some v => if truthy v then some v else none
        | none => none) with
    | some (jstr s) => normalizeStateStr s
    | some _ => "UNKNOWN"
    | none => "UNKNOWN"
  | _ => "UNKNOWN"

end NiFi

/-! # Diagnostic-file analyzer (`diagnostics/nifi_diag.py`) -/

namespace NiFiDiag

/-- The fixed `section_patterns` catalog of
`NiFiDiagnosticAnalyzer.parse_diagnostic_file`: each regex `=+ Title =+`
(case-insensitive) paired with its section name. -/
def sectionPatterns : List (String × String) :=
  [("System Diagnostics", "system_diagnostics"),
   ("NiFi Properties", "nifi_properties"),
   ("Bootstrap Properties", "bootstrap_properties"),
   ("JVM Information", "jvm_information"),
   ("Memory Usage", "memory_usage"),
   ("Garbage Collection", "garbage_collection"),
   ("Thread Information", "thread_information"),
   ("Process Groups", "process_groups"),
   ("Processors", "processors"),
   ("Controller Services", "controller_services"),
   ("Reporting Tasks", "reporting_tasks"),
   ("Connections", "connections"),
   ("Provenance", "provenance"),
   ("FlowFile Repository", "flowfile_repository"),
   ("Content Repository", "content_repository"),
   ("Disk Usage", "disk_usage"),
   ("Network Information", "network_information"),
   ("Operating System", "operating_system"),
   ("Environment Variables", "environment_variables"),
   ("Cluster Information", "cluster_information"),
   ("Registry Clients", "registry_clients")]

/-- Length of the leading run of `=` characters. -/
def countEq : List Char → Nat
  | '=' :: t => countEq t + 1
  | _ => 0

/-- Consume `lit` case-insensitively from the front of the text, returning
the remainder (the `re.IGNORECASE` literal part of a header pattern). -/
def matchLitCI : List Char → List Char → Option (List Char)
  | [], rest => some rest
  | _ :: _, [] => none
  | c :: cs, d :: ds => if c.toLower = d.toLower then matchLitCI cs ds else none

/-- Match the regex `=+ lit =+` at the start of `l`, returning the match
length.  The leading `=+` is greedy and must be followed by a literal
space, so exactly the maximal `=`-run can match; likewise the trailing
run. -/
def matchHeaderAt (lit : List Char) (l : List Char) : Option Nat :=
  if countEq l = 0 then none
  else
    match l.drop (countEq l) with
    | ' ' :: r2 =>
      match matchLitCI lit r2 with
      | some (' ' :: r4) =>
        if countEq r4 = 0 then none
        else some (countEq l + 1 + lit.length + 1 + countEq r4)
      | _ => none
    | _ => none

/-- `re.finditer`: scan left to right, yield non-overlapping matches
(start offset and matched text), resuming after each match.  `fuel` is the
remaining scan budget; every step consumes at least one character, so a
budget of the text length is exact. -/
def scanPat (lit : List Char) : Nat → List Char → Nat → List (Nat × List Char)
  | 0, _, _ => []
  | _ + 1, [], _ => []
  | fuel + 1, l@(_ :: t), i =>
    match matchHeaderAt lit l with
    | some len => (i, l.take len) :: scanPat lit fuel (l.drop len) (i + len)
    | none => scanPat lit fuel t (i + 1)

/-- All `(start, name, matched header)` triples, per pattern in catalog
order (the `section_starts` list before sorting). -/
def allMatches (doc : List Char) : List (Nat × String × String) :=
  (sectionPatterns.map (fun pn =>
    (scanPat pn.1.data doc.length doc 0).map
      (fun sh => (sh.1, pn.2, String.mk sh.2)))).flatten

/-- Stable insertion of a match into a list sorted by start offset
(`section_starts.sort(key=lambda x: x[0])`). -/
def insertM (m : Nat × String × String) :
    List (Nat × String × String) → List (Nat × String × String)
  | [] => [m]
  | x :: t => if m.1 ≤ x.1 then m :: x :: t else x :: insertM m t

/-- Stable sort of the match list by start offset. -/
def sortMatches : List (Nat × String × String) → List (Nat × String × String)
  | [] => []
  | x :: t => insertM x (sortMatches t)

/-- One parsed diagnostic section (`self.sections[name]`). -/
structure DiagSection where
  header : String
  content : String
  start_pos : Nat
  deriving DecidableEq, Repr

/-- `self.raw_content[s:e].strip()`. -/
def sliceStrip (doc : List Char) (s e : Nat) : String :=
  String.mk (NiFi.pyStrip ((doc.drop s).take (e - s)))

/-- `self.raw_content[s:].strip()`. -/
def sliceStripEnd (doc : List Char) (s : Nat) : String :=
  String.mk (NiFi.pyStrip (doc.drop s))

/-- Python dict assignment `self.sections[name] = {...}`: replace in place
when the name exists (last match wins), else append. -/
def upsertSec : List (String × DiagSection) → String → DiagSection →
    List (String × DiagSection)
  | [], k, v => [(k, v)]
  | (k0, v0) :: t, k, v =>
    if k0 = k then (k0, v) :: t else (k0, v0) :: upsertSec t k v

/-- The section-assembly loop of `parse_diagnostic_file`: each sorted
match's content runs from its start offset to the next match's start
offset (exclusive), or to the end of the document, and is stripped. -/
def buildSections (doc : List Char) :
    List (Nat × String × String) → List (String × DiagSection) →
    List (String × DiagSection)
  | [], acc => acc
  | (s, name, h) :: rest, acc =>
    let content :=
      match rest with
      | (s2, _, _) :: _ => sliceStrip doc s s2
      | [] => sliceStripEnd doc s
    buildSections doc rest (upsertSec acc name { header := h, content := content, start_pos := s })

/-- `NiFiDiagnosticAnalyzer.parse_diagnostic_file` (less the file I/O): the
section map produced from a document. -/
def parse_diagnostic_file (doc : String) : List (String × DiagSection) :=
  buildSections doc.data (sortMatches (allMatches doc.data)) []

/-- The sorted match list of a document. -/
def sortedStarts (doc : String) : List (Nat × String × String) :=
  sortMatches (allMatches doc.data)

/-- The discarded preamble: the text before the first matched header (the
whole document when nothing matches). -/
def preambleLen (doc : String) : Nat :=
  match sortedStarts doc with
  | [] => doc.length
  | m :: _ => m.1

/-- Total length of the produced sections' stored contents. -/
def contentLenSum (secs : List (String × DiagSection)) : Nat :=
  (secs.map (fun s => s.2.content.length)).sum

/-- The section spans implied by a sorted match list over a document of
length `docLen`: each span runs from its match's start to the next match's
start, the last one to the end of the document. -/
def spanLens (docLen : Nat) : List Nat → List Nat
  | [] => []
  | [s] => [docLen - s]
  | s :: s2 :: t => (s2 - s) :: spanLens docLen (s2 :: t)

/-- Adjacent-sorted start offsets. -/
def ascStarts : List (Nat × String × String) → Bool
  | [] => true
  | [_] => true
  | x :: y :: t => (x.1 ≤ y.1) && ascStarts (y :: t)

end NiFiDiag

namespace NiFi

/-- No two adjacent characters both satisfy `p` (the shape of the output of
run collapsing, used in the idempotence proof). -/
def noAdjP (p : Char → Bool) : List Char → Bool
  | [] => true
  | [_] => true
  | a :: b :: t => (!(p a && p b)) && noAdjP p (b :: t)

end NiFi

/-! # Concrete documents used when settling the claims -/

namespace NiFi

open JVal JArr JObj

/-- A record whose direct `state` field is empty while a top-level
`runStatus` holds `RUNNING`. -/
def exC2Obj : JObj :=
  jobjL [("state", jstr ""), ("runStatus", jstr "RUNNING")]

/-- A record with a direct `state` field conflicting with a nested
`status.runStatus` field. -/
def exC2wObj : JObj :=
  jobjL [("state", jstr "Stopped"),
         ("status", jobjOf [("runStatus", jstr "RUNNING")])]

/-- The claim C3 record. -/
def exC3 : JVal :=
  jobjOf [("identifier", jstr "p1"), ("name", jstr "A"),
          ("schedulingStrategy", jstr "DISABLED")]

/-- A record whose top-level and `component.config` scheduling strategies
conflict. -/
def exC4 : JVal :=
  jobjOf [("schedulingStrategy", jstr "TIMER_DRIVEN"),
          ("component", jobjOf [("config",
            jobjOf [("schedulingStrategy", jstr "CRON_DRIVEN")])])]

/-- The `config` block of the C4 witness record. -/
def exC4wGfs : JObj :=
  jobjL [("schedulingPeriod", jstr "1 sec"),
         ("penaltyDuration", jstr "30 sec"),
         ("yieldDuration", jstr "2 sec"),
         ("bulletinLevel", jstr "WARN"),
         ("concurrentlySchedulableTaskCount", jnum 3),
         ("properties", jobjOf [("Remote URL", jstr "http://x")])]

/-- The `component` envelope of the C4 witness record. -/
def exC4wCfs : JObj :=
  jobjL [("config", jobj exC4wGfs)]

/-- The C4 witness record: top-level values for strategy and period, and a
`component.config` block carrying every other field. -/
def exC4wObj : JObj :=
  jobjL [("schedulingStrategy", jstr "TIMER_DRIVEN"),
         ("schedulingPeriod", jstr "9 sec"),
         ("component", jobj exC4wCfs)]

/-- The record `parse_processor` produces for the C4 witness record. -/
def exC4wRec : ProcRec :=
  { id := "Unknown",
    name := "Unnamed Processor",
    type := "Unknown Type",
    group := "Root",
    state := "UNKNOWN",
    scheduling_strategy := "TIMER_DRIVEN",
    concurrent_tasks := jnum 3,
    scheduling_period := "1 sec",
    penalty_duration := "30 sec",
    yield_duration := "2 sec",
    bulletin_level := "WARN",
    auto_terminated_relationships := [],
    properties := [("Remote URL", "http://x")],
    relationships := [] }

/-- A syntactically valid document whose `processGroupFlow` envelope lacks
the expected `flow` subtree. -/
def docC1 : JVal :=
  jobjOf [("processGroupFlow", jobjOf [])]

/-- A well-shaped group tree: one processor at the root and one in a named
child group. -/
def exC1w : JVal :=
  jobjOf [("processors", jarrOf [jobjOf [("identifier", jstr "p")]]),
          ("processGroups", jarrOf [jobjOf [("name", jstr "G"),
            ("processors", jarrOf [jobjOf []])]])]

/-- A document whose structured path finds one record but whose unguided
fallback trips over a malformed `processors` list elsewhere. -/
def docC8 : JVal :=
  jobjOf [("flowContents", jobjOf [("processors", jarrOf [jobjOf []])]),
          ("junk", jobjOf [("processors", jarrOf [jnum 5])])]

/-- The entries of a well-shaped document for the C8 witness. -/
def docC8wObj : JObj :=
  jobjL [("flowContents", jobjOf [("processors", jarrOf [jobjOf []])])]

/-- The `flowContents` subtree of the C8 witness document. -/
def gW : JVal := jobjOf [("processors", jarrOf [jobjOf []])]

/-- The record produced for an empty processor dict, at a given group. -/
def emptyRec (grp : String) : ProcRec :=
  { id := "Unknown", name := "Unnamed Processor", type := "Unknown Type",
    group := grp, state := "UNKNOWN", scheduling_strategy := "Unknown",
    concurrent_tasks := jnum 1, scheduling_period := "Unknown",
    penalty_duration := "Unknown", yield_duration := "Unknown",
    bulletin_level := "Unknown", auto_terminated_relationships := [],
    properties := [], relationships := [] }

/-- A record whose direct `state` field holds a number. -/
def exC10Obj : JObj :=
  jobjL [("state", jnum 5)]

/-- A record with no direct state or component whose `status` field holds
a number. -/
def exC10bObj : JObj :=
  jobjL [("status", jnum 5)]

end NiFi

namespace NiFiDiag

/-- A one-header diagnostic document ending in a newline. -/
def diagDoc0 : String := "=== Memory Usage ===\n"

end NiFiDiag

/-! # Theorems -/

namespace NiFi

open JVal JArr JObj

/-- Auxiliary: `containsObj` is key presence. -/
theorem containsObj_eq_isSome (fs : JObj) (k : String) :
    containsObj fs k = (lookupObj fs k).isSome := rfl

/-- C2, counterexample: on the record `{"state": "", "runStatus": "RUNNING"}`
the classifier keyed on key presence returns the empty string, not the
`RUNNING` that the first-non-empty-rule reading of the claim predicts. -/
theorem c2_first_nonempty_rule_cex :
    get_processor_state (jobj exC2Obj) = .ok "" ∧
    classifySpecC2 (jobj exC2Obj) = "RUNNING" ∧
    get_processor_state (jobj exC2Obj) ≠ .ok (classifySpecC2 (jobj exC2Obj)) := by
  refine ⟨by decide, by decide, by decide⟩

/-- C2, amended: the classifier dispatches on key presence: whenever the
record has a direct `state` key holding a string, its normalized value is
returned, and no later rule is consulted — even when that string is empty,
and regardless of any conflicting nested status fields. -/
theorem c2_direct_state_key_wins (fs : JObj) (s : String)
    (h : lookupObj fs "state" = some (jstr s)) :
    get_processor_state (jobj fs) = .ok (normalizeStateStr s) := by
  simp [get_processor_state, rawProcessorState, pyContains, containsObj, pySub, h]

/-- C2, witness: a record with a direct `state = "Stopped"` and a
conflicting nested `status.runStatus = "RUNNING"` classifies as `STOPPED`. -/
theorem c2_direct_state_key_wins_witness :
    get_processor_state (jobj exC2wObj) = .ok "STOPPED" := by
  have h := c2_direct_state_key_wins exC2wObj "Stopped" (by decide)
  rw [h]; decide

/-- C3, counterexample: the record
`{"identifier":"p1","name":"A","schedulingStrategy":"DISABLED"}` does not
yield `runState = DISABLED` (its top-level scheduling strategy is never
consulted by the status classifier); the id is `"p1"` as claimed. -/
theorem c3_disabled_record_cex :
    (parse_processor exC3 (jstr "Root")).map ProcRec.state ≠ .ok "DISABLED" ∧
    (parse_processor exC3 (jstr "Root")).map ProcRec.id = .ok "p1" := by
  refine ⟨by decide, by decide⟩

/-- C3, amended: that record parses with `runState = UNKNOWN` and
`id = "p1"`. -/
theorem c3_disabled_record_parses_unknown :
    (parse_processor exC3 (jstr "Root")).map ProcRec.state = .ok "UNKNOWN" ∧
    (parse_processor exC3 (jstr "Root")).map ProcRec.id = .ok "p1" := by
  refine ⟨by decide, by decide⟩

/-- C4, counterexample: `scheduling_strategy` is not among the fields the
`component.config` block overrides — with `TIMER_DRIVEN` on the unwrapped
record and `CRON_DRIVEN` in the config block, the unwrapped value is kept,
not the config value the claim requires. -/
theorem c4_scheduling_strategy_cex :
    (parse_processor exC4 (jstr "Root")).map ProcRec.scheduling_strategy =
      .ok "TIMER_DRIVEN" ∧
    (parse_processor exC4 (jstr "Root")).map ProcRec.scheduling_strategy ≠
      .ok "CRON_DRIVEN" := by
  refine ⟨by decide, by decide⟩

/-- C6: the claim (and the source's own comment `Replace newlines and
carriage returns with spaces`) says a lone carriage return folds into a
space, but the control-character class `[\x00-\x08\x0B-\x1F\x7F]` of the
first substitution contains `\x0D`, so the CR is deleted before the
`[\r\n]+` substitution can see it: `clean("a\rb")` is `"ab"`, not
`"a b"`. -/
theorem c6_carriage_return_deleted :
    clean_data (jstr "a\rb") = "ab" ∧ clean_data (jstr "a\rb") ≠ "a b" := by
  refine ⟨by decide, by decide⟩

/-- C7: whenever the property name case-insensitively contains a denylist
entry, `clean_sensitive_property` returns one of the two fixed markers
chosen by the value's truthiness alone — never the raw value. -/
theorem c7_sensitive_name_redacts (name : String) (v : JVal)
    (h : isSensitiveName name = true) :
    clean_sensitive_property name v =
      (if truthy v then "***SENSITIVE***" else "Not Set") := by
  simp [clean_sensitive_property, h]

/-- C7, witness: the property `"Secret Access Key"` with value `"abc123"`
sanitizes to the fixed redaction marker. -/
theorem c7_sensitive_name_redacts_witness :
    clean_sensitive_property "Secret Access Key" (jstr "abc123") =
      "***SENSITIVE***" := by
  have h := c7_sensitive_name_redacts "Secret Access Key" (jstr "abc123") (by decide)
  rw [h]; decide

/-- C10: a non-string direct `state` value makes the classifier return the
literal `"UNKNOWN"` without stringifying or mapping it; by contrast, a
non-dict `status` value (with rules 1-2 absent) is stringified via `str()`
and then normalized. -/
theorem c10_nonstring_state_unknown :
    (∀ (fs : JObj) (v : JVal), lookupObj fs "state" = some v → isStrJ v = false →
      get_processor_state (jobj fs) = .ok "UNKNOWN") ∧
    (∀ (fs : JObj) (v : JVal), lookupObj fs "state" = none →
      lookupObj fs "component" = none → lookupObj fs "status" = some v →
      isObjJ v = false →
      get_processor_state (jobj fs) = .ok (normalizeStateStr (pyStr v))) := by
  constructor
  · intro fs v h hv
    cases v <;> simp_all [get_processor_state, rawProcessorState, pyContains,
      containsObj, pySub, isStrJ]
  · intro fs v h1 h2 h3 hv
    cases v <;> simp_all [get_processor_state, rawProcessorState, pyContains,
      containsObj, pySub, isObjJ]

/-- C10, witness: a numeric direct `state` yields `"UNKNOWN"`, while a
numeric `status` is stringified to `"5"` and passed through unmapped. -/
theorem c10_nonstring_state_unknown_witness :
    get_processor_state (jobj exC10Obj) = .ok "UNKNOWN" ∧
    get_processor_state (jobj exC10bObj) = .ok "5" := by
  constructor
  · exact c10_nonstring_state_unknown.1 exC10Obj (jnum 5) (by decide) (by decide)
  · have h := c10_nonstring_state_unknown.2 exC10bObj (jnum 5)
      (by decide) (by decide) (by decide) (by decide)
    rw [h]; decide

/-- C1, counterexample: a syntactically valid document whose matched
`processGroupFlow` envelope lacks the expected `flow` subtree makes
`parse_flow` raise a `KeyError` instead of degrading to a default or
treating the node as "no records here". -/
theorem c1_parse_flow_raises_cex :
    parse_flow docC1 = .error .keyError := by decide

/-- C8, counterexample: on `docC8` the structured envelope traversal finds
one record, but running the unguided recursive fallback on the same
document raises a `TypeError` (at the malformed `processors` list under
`junk`), so the fallback does not find at least as many records. -/
theorem c8_fallback_raises_cex :
    (parse_flow docC8).map List.length = .ok 1 ∧
    find_processors_recursively docC8 "root" = .error .typeError := by
  refine ⟨by decide, by decide⟩

end NiFi

/-! ## Idempotence of the sanitizer (claim C9) -/

namespace NiFi

open JVal JArr JObj

/-- Every character of a run-collapsed list is a space or a non-`p`
character of the input. -/
theorem mem_collapseAux (p : Char → Bool) (l : List Char) :
    ∀ (b : Bool) (c : Char), c ∈ collapseAux p b l →
      c = ' ' ∨ (c ∈ l ∧ p c = false) := by
  induction l with
  | nil => intro b c hc; simp [collapseAux] at hc
  | cons a t ih =>
    intro b c hc
    by_cases hpa : p a = true
    · cases b <;> simp [collapseAux, hpa] at hc
      · rcases hc with hc | hc
        · exact .inl hc
        · rcases ih true c hc with h | ⟨hm, hp⟩
          · exact .inl h
          · exact .inr ⟨List.mem_cons_of_mem _ hm, hp⟩
      · rcases ih true c hc with h | ⟨hm, hp⟩
        · exact .inl h
        · exact .inr ⟨List.mem_cons_of_mem _ hm, hp⟩
    · simp [collapseAux, hpa] at hc
      rcases hc with hc | hc
      · exact .inr ⟨by simp [hc], by simpa [hc] using hpa⟩
      · rcases ih false c hc with h | ⟨hm, hp⟩
        · exact .inl h
        · exact .inr ⟨List.mem_cons_of_mem _ hm, hp⟩

/-- In the in-run state, the collapser's next emitted character is not a
`p`-character. -/
theorem head_collapseAux_true (p : Char → Bool) (l : List Char) :
    ∀ d, (collapseAux p true l).head? = some d → p d = false := by
  induction l with
  | nil => intro d hd; simp [collapseAux] at hd
  | cons a t ih =>
    intro d hd
    by_cases hpa : p a = true
    · simp [collapseAux, hpa] at hd
      exact ih d hd
    · simp [collapseAux, hpa] at hd
      simpa [hd] using hpa

/-- Unfolding `noAdjP` over a cons. -/
theorem noAdjP_cons_iff (p : Char → Bool) (a : Char) (l : List Char) :
    noAdjP p (a :: l) = true ↔
      (∀ d, l.head? = some d → (p a && p d) = false) ∧ noAdjP p l = true := by
  cases l with
  | nil => simp [noAdjP]
  | cons b t =>
    simp only [noAdjP, Bool.and_eq_true, Bool.not_eq_true']
    constructor
    · rintro ⟨h1, h2⟩
      exact ⟨fun d hd => by simpa [← Option.some_inj.mp hd] using h1, h2⟩
    · rintro ⟨h1, h2⟩
      exact ⟨h1 b rfl, h2⟩

/-- The output of run collapsing has no two adjacent `p`-characters. -/
theorem noAdj_collapseAux (p : Char → Bool) (l : List Char) :
    ∀ b, noAdjP p (collapseAux p b l) = true := by
  induction l with
  | nil => intro b; simp [collapseAux, noAdjP]
  | cons a t ih =>
    intro b
    by_cases hpa : p a = true
    · cases b
      · rw [show collapseAux p false (a :: t) = ' ' :: collapseAux p true t by
              simp [collapseAux, hpa]]
        rw [noAdjP_cons_iff]
        refine ⟨fun d hd => ?_, ih true⟩
        have := head_collapseAux_true p t d hd
        simp [this]
      · simpa [collapseAux, hpa] using ih true
    · have hstep : ∀ b, collapseAux p b (a :: t) = a :: collapseAux p false t := by
        intro b; simp [collapseAux, hpa]
      rw [hstep b, noAdjP_cons_iff]
      refine ⟨fun d hd => ?_, ih false⟩
      simp [hpa]

/-- Run collapsing is the identity on lists without `p`-characters. -/
theorem collapseAux_eq_of_no_p (p : Char → Bool) (l : List Char)
    (h : ∀ c ∈ l, p c = false) : ∀ b, collapseAux p b l = l := by
  induction l with
  | nil => intro b; simp [collapseAux]
  | cons a t ih =>
    intro b
    have hpa : p a = false := h a (by simp)
    simp [collapseAux, hpa]
    exact ih (fun c hc => h c (List.mem_cons_of_mem _ hc)) false

/-- Run collapsing (from the out-of-run state) is the identity on lists
whose `p`-characters are all `' '` and non-adjacent; from the in-run state
the same holds when the first character is not a `p`-character. -/
theorem collapseAux_id (p : Char → Bool) (_hsp : p ' ' = true) (l : List Char)
    (h1 : ∀ c ∈ l, p c = true → c = ' ') (h2 : noAdjP p l = true) :
    collapseAux p false l = l ∧
      ((∀ d, l.head? = some d → p d = false) → collapseAux p true l = l) := by
  induction l with
  | nil => exact ⟨by simp [collapseAux], fun _ => by simp [collapseAux]⟩
  | cons a t ih =>
    have h2' := (noAdjP_cons_iff p a t).mp h2
    have iht := ih (fun c hc hp => h1 c (List.mem_cons_of_mem _ hc) hp) h2'.2
    constructor
    · by_cases hpa : p a = true
      · have ha : a = ' ' := h1 a (by simp) hpa
        have ht : ∀ d, t.head? = some d → p d = false := by
          intro d hd
          have := h2'.1 d hd
          simpa [hpa] using this
        rw [show collapseAux p false (a :: t) = ' ' :: collapseAux p true t by
              simp [collapseAux, hpa]]
        rw [iht.2 ht, ha]
      · rw [show collapseAux p false (a :: t) = a :: collapseAux p false t by
              simp [collapseAux, hpa]]
        rw [iht.1]
    · intro hh
      have hpa : p a = false := hh a rfl
      rw [show collapseAux p true (a :: t) = a :: collapseAux p false t by
            simp [collapseAux, hpa]]
      rw [iht.1]

/-- `dropTrailing` over a cons whose tail keeps something. -/
theorem dropTrailing_cons_of_cons (p : Char → Bool) (a x : Char) (t xs : List Char)
    (hr : dropTrailing p t = x :: xs) :
    dropTrailing p (a :: t) = a :: x :: xs := by
  conv_lhs => rw [dropTrailing, hr]

/-- Members of `dropTrailing` come from the input. -/
theorem mem_dropTrailing (p : Char → Bool) (l : List Char) :
    ∀ c, c ∈ dropTrailing p l → c ∈ l := by
  induction l with
  | nil => intro c hc; simp [dropTrailing] at hc
  | cons a t ih =>
    intro c hc
    rcases hr : dropTrailing p t with _ | ⟨x, xs⟩
    · conv at hc => rw [dropTrailing, hr]
      by_cases hpa : p a = true
      · rw [if_pos hpa] at hc; simp at hc
      · rw [if_neg hpa] at hc
        simp at hc
        simp [hc]
    · rw [dropTrailing_cons_of_cons p a x t xs hr, ← hr] at hc
      rcases List.mem_cons.mp hc with hc | hc
      · simp [hc]
      · exact List.mem_cons_of_mem _ (ih c hc)

/-- `dropTrailing` keeps the head of the list (when nonempty). -/
theorem head?_dropTrailing (p : Char → Bool) (l : List Char)
    (h : dropTrailing p l ≠ []) : (dropTrailing p l).head? = l.head? := by
  cases l with
  | nil => simp [dropTrailing] at h
  | cons a t =>
    rcases hr : dropTrailing p t with _ | ⟨x, xs⟩
    · conv_lhs => rw [dropTrailing, hr]
      conv at h => rw [dropTrailing, hr]
      by_cases hpa : p a = true
      · rw [if_pos hpa] at h; simp at h
      · rw [if_neg hpa]; simp
    · rw [dropTrailing_cons_of_cons p a x t xs hr]
      simp

/-- The last character surviving `dropTrailing` is not a `p`-character. -/
theorem getLast?_dropTrailing_not (p : Char → Bool) (l : List Char) :
    ∀ d, (dropTrailing p l).getLast? = some d → p d = false := by
  induction l with
  | nil => intro d hd; simp [dropTrailing] at hd
  | cons a t ih =>
    intro d hd
    rcases hr : dropTrailing p t with _ | ⟨x, xs⟩
    · conv at hd => rw [dropTrailing, hr]
      by_cases hpa : p a = true
      · rw [if_pos hpa] at hd; simp at hd
      · rw [if_neg hpa] at hd
        simp at hd
        rw [← hd]
        simpa using hpa
    · rw [dropTrailing_cons_of_cons p a x t xs hr, List.getLast?_cons_cons, ← hr] at hd
      exact ih d hd

/-- `dropTrailing` is the identity when the last character is not a
`p`-character. -/
theorem dropTrailing_id_of_last (p : Char → Bool) (l : List Char)
    (h : ∀ d, l.getLast? = some d → p d = false) : dropTrailing p l = l := by
  induction l with
  | nil => simp [dropTrailing]
  | cons a t ih =>
    cases t with
    | nil =>
      have := h a (by simp)
      simp [dropTrailing, this]
    | cons b ts =>
      have ht : dropTrailing p (b :: ts) = b :: ts := by
        apply ih
        intro d hd
        exact h d (by rw [List.getLast?_cons_cons]; exact hd)
      exact dropTrailing_cons_of_cons p a b (b :: ts) ts ht

/-- `dropTrailing` preserves the no-adjacent-`p` shape. -/
theorem noAdj_dropTrailing (p : Char → Bool) (l : List Char)
    (h : noAdjP p l = true) : noAdjP p (dropTrailing p l) = true := by
  induction l with
  | nil => simpa [dropTrailing] using h
  | cons a t ih =>
    have h' := (noAdjP_cons_iff p a t).mp h
    have iht := ih h'.2
    rcases hr : dropTrailing p t with _ | ⟨x, xs⟩
    · conv_lhs => rw [dropTrailing, hr]
      by_cases hpa : p a = true
      · rw [if_pos hpa]; simp [noAdjP]
      · rw [if_neg hpa]; simp [noAdjP]
    · rw [dropTrailing_cons_of_cons p a x t xs hr, ← hr]
      rw [noAdjP_cons_iff]
      refine ⟨fun d hd => ?_, iht⟩
      have hhead : (dropTrailing p t).head? = t.head? :=
        head?_dropTrailing p t (by simp [hr])
      rw [hhead] at hd
      exact h'.1 d hd

/-- The first character surviving `dropWhile` is not a `p`-character. -/
theorem head?_dropWhile_not_p (p : Char → Bool) (l : List Char) :
    ∀ d, (l.dropWhile p).head? = some d → p d = false := by
  induction l with
  | nil => intro d hd; simp at hd
  | cons a t ih =>
    intro d hd
    by_cases hpa : p a = true <;> simp [List.dropWhile_cons, hpa] at hd
    · exact ih d hd
    · simpa [← hd] using hpa

/-- `dropWhile` is the identity when the head is not a `p`-character. -/
theorem dropWhile_id_of_head (p : Char → Bool) (l : List Char)
    (h : ∀ d, l.head? = some d → p d = false) : l.dropWhile p = l := by
  cases l with
  | nil => simp
  | cons a t => simp [List.dropWhile_cons, h a rfl]

/-- `dropWhile` preserves the no-adjacent-`p` shape. -/
theorem noAdj_dropWhile (p : Char → Bool) (l : List Char)
    (h : noAdjP p l = true) : noAdjP p (l.dropWhile p) = true := by
  induction l with
  | nil => simpa using h
  | cons a t ih =>
    have h' := (noAdjP_cons_iff p a t).mp h
    by_cases hpa : p a = true <;> simp [List.dropWhile_cons, hpa]
    · exact ih h'.2
    · exact h

/-- Members of `dropWhile` come from the input. -/
theorem mem_dropWhile (p : Char → Bool) (l : List Char) :
    ∀ c, c ∈ l.dropWhile p → c ∈ l := by
  induction l with
  | nil => intro c hc; simp at hc
  | cons a t ih =>
    intro c hc
    by_cases hpa : p a = true <;> simp [List.dropWhile_cons, hpa] at hc
    · exact List.mem_cons_of_mem _ (ih c hc)
    · exact List.mem_cons.mpr hc

/-- Members of `pyStrip` come from the input. -/
theorem mem_pyStrip (l : List Char) (c : Char) (hc : c ∈ pyStrip l) : c ∈ l :=
  mem_dropWhile pySpace l c (mem_dropTrailing pySpace _ c hc)

/-- The stripped list neither starts nor ends with whitespace, and keeps
the no-adjacent shape. -/
theorem pyStrip_heads (l : List Char) :
    (∀ d, (pyStrip l).head? = some d → pySpace d = false) ∧
      (∀ d, (pyStrip l).getLast? = some d → pySpace d = false) := by
  constructor
  · intro d hd
    have hne : dropTrailing pySpace (l.dropWhile pySpace) ≠ [] := by
      intro h0; rw [pyStrip, h0] at hd; simp at hd
    rw [pyStrip, head?_dropTrailing pySpace _ hne] at hd
    exact head?_dropWhile_not_p pySpace l d hd
  · intro d hd
    exact getLast?_dropTrailing_not pySpace _ d hd

/-- `pyStrip` is the identity on lists that neither start nor end with
whitespace. -/
theorem pyStrip_id (l : List Char)
    (hh : ∀ d, l.head? = some d → pySpace d = false)
    (hl : ∀ d, l.getLast? = some d → pySpace d = false) : pyStrip l = l := by
  rw [pyStrip, dropWhile_id_of_head pySpace l hh, dropTrailing_id_of_last pySpace l hl]

/-- `pyStrip` preserves the no-adjacent-whitespace shape. -/
theorem noAdj_pyStrip (l : List Char) (h : noAdjP pySpace l = true) :
    noAdjP pySpace (pyStrip l) = true :=
  noAdj_dropTrailing pySpace _ (noAdj_dropWhile pySpace l h)

/-- The sanitizer's character pipeline is idempotent. -/
theorem cleanList_idem (l : List Char) : cleanList (cleanList l) = cleanList l := by
  set out1 := l.filter (fun c => !(isCtrl c)) with hout1
  set out2 := collapseRuns isCRLF out1 with hout2
  set out3 := collapseRuns pySpace out2 with hout3
  set out4 := pyStrip out3 with hout4
  have hsp3 : ∀ c ∈ out3, pySpace c = true → c = ' ' := by
    intro c hc hp
    rcases mem_collapseAux pySpace out2 false c hc with h | ⟨_, hpf⟩
    · exact h
    · rw [hp] at hpf; cases hpf
  have hna3 : noAdjP pySpace out3 = true := noAdj_collapseAux pySpace out2 false
  have hctrl3 : ∀ c ∈ out3, isCtrl c = false := by
    intro c hc
    rcases mem_collapseAux pySpace out2 false c hc with h | ⟨hc2, _⟩
    · rw [h]; decide
    · rcases mem_collapseAux isCRLF out1 false c hc2 with h | ⟨hc1, _⟩
      · rw [h]; decide
      · have := List.mem_filter.mp hc1
        simpa using this.2
  have hsp4 : ∀ c ∈ out4, pySpace c = true → c = ' ' :=
    fun c hc hp => hsp3 c (mem_pyStrip out3 c hc) hp
  have hctrl4 : ∀ c ∈ out4, isCtrl c = false :=
    fun c hc => hctrl3 c (mem_pyStrip out3 c hc)
  have hna4 : noAdjP pySpace out4 = true := noAdj_pyStrip out3 hna3
  have hnul4 : ∀ c ∈ out4, c ≠ '\x00' := by
    intro c hc h0
    have := hctrl4 c hc
    rw [h0] at this
    simp [isCtrl] at this
  have hfilter4 : out4.filter (fun c => c ≠ '\x00') = out4 :=
    List.filter_eq_self.mpr (by intro c hc; simpa using hnul4 c hc)
  have hfix : cleanList l = out4 := by
    rw [cleanList, ← hout1, ← hout2, ← hout3, ← hout4]
    exact hfilter4
  rw [hfix]
  have hcrlf4 : ∀ c ∈ out4, isCRLF c = false := by
    intro c hc
    by_cases h : isCRLF c = true
    · have hsp : pySpace c = true := by
        rcases (by simpa [isCRLF] using h : c = '\r' ∨ c = '\n') with h' | h' <;>
          rw [h'] <;> decide
      have := hsp4 c hc hsp
      rw [this] at h
      simp [isCRLF] at h
    · simpa using h
  have hstep1 : out4.filter (fun c => !(isCtrl c)) = out4 :=
    List.filter_eq_self.mpr (by intro c hc; simpa using hctrl4 c hc)
  have hstep2 : collapseRuns isCRLF out4 = out4 :=
    collapseAux_eq_of_no_p isCRLF out4 hcrlf4 false
  have hstep3 : collapseRuns pySpace out4 = out4 :=
    (collapseAux_id pySpace (by decide) out4 hsp4 hna4).1
  have hstep4 : pyStrip out4 = out4 :=
    pyStrip_id out4 (pyStrip_heads out3).1 (pyStrip_heads out3).2
  rw [cleanList, hstep1, hstep2, hstep3, hstep4]
  exact hfilter4

/-- C9: `clean_data` is idempotent on strings:
`clean(clean(x)) = clean(x)` for every string `x`. -/
theorem c9_clean_data_idempotent (s : String) :
    clean_data (jstr (clean_data (jstr s))) = clean_data (jstr s) := by
  show cleanStr (cleanStr s) = cleanStr s
  unfold cleanStr
  exact congrArg String.mk (cleanList_idem s.data)

end NiFi

/-! ## Section segmentation (claim C5) -/

namespace NiFiDiag

/-- The leading `=`-run is no longer than the text. -/
theorem countEq_le_length (l : List Char) : countEq l ≤ l.length := by
  induction l with
  | nil => simp [countEq]
  | cons a t ih =>
    by_cases ha : a = '='
    · subst ha; rw [countEq]; simpa using ih
    · rw [show countEq (a :: t) = 0 by
        cases t <;> simp_all [countEq]]
      simp

/-- A successful case-insensitive literal match consumes exactly the
literal's length. -/
theorem matchLitCI_length (lit : List Char) :
    ∀ h r, matchLitCI lit h = some r → h.length = lit.length + r.length := by
  induction lit with
  | nil => intro h r hm; simp [matchLitCI] at hm; simp [hm]
  | cons c cs ih =>
    intro h r hm
    cases h with
    | nil => simp [matchLitCI] at hm
    | cons d ds =>
      rw [matchLitCI] at hm
      by_cases hcd : c.toLower = d.toLower
      · rw [if_pos hcd] at hm
        have := ih ds r hm
        simp [this]; omega
      · rw [if_neg hcd] at hm; cases hm

/-- A header match is nonempty and fits inside the text. -/
theorem matchHeaderAt_bounds (lit l : List Char) (len : Nat)
    (h : matchHeaderAt lit l = some len) : 1 ≤ len ∧ len ≤ l.length := by
  rw [matchHeaderAt] at h
  split at h
  · cases h
  · split at h
    · split at h
      · split at h
        · cases h
        · injection h with hlen
          rename_i xa r2 hd xo r4 hlit hm
          have h1 : countEq l ≤ l.length := countEq_le_length l
          have h2 : (l.drop (countEq l)).length = l.length - countEq l := by simp
          rw [hd] at h2
          have h3 : r2.length = lit.length + (' ' :: r4).length :=
            matchLitCI_length lit r2 _ hlit
          have h4 : countEq r4 ≤ r4.length := countEq_le_length r4
          simp at h2 h3
          omega
      · cases h
    · cases h

/-- Every match the scanner yields starts inside the scanned region. -/
theorem scanPat_bounds (lit : List Char) :
    ∀ (fuel : Nat) (l : List Char) (i : Nat) (m : Nat × List Char),
      m ∈ scanPat lit fuel l i → i ≤ m.1 ∧ m.1 ≤ i + l.length := by
  intro fuel
  induction fuel with
  | zero => intro l i m hm; simp [scanPat] at hm
  | succ f ih =>
    intro l i m hm
    cases l with
    | nil => simp [scanPat] at hm
    | cons a t =>
      rw [scanPat] at hm
      rcases hh : matchHeaderAt lit (a :: t) with _ | len <;> rw [hh] at hm
      · have := ih t (i + 1) m hm
        simp only [List.length_cons]
        omega
      · rcases List.mem_cons.mp hm with hm | hm
        · rw [hm]; simp
        · have hb := matchHeaderAt_bounds lit (a :: t) len hh
          have := ih ((a :: t).drop len) (i + len) m hm
          have hdl : ((a :: t).drop len).length = (a :: t).length - len := by simp
          omega

/-- Every recorded section start lies inside the document. -/
theorem allMatches_bounds (doc : List Char) (m : Nat × String × String)
    (hm : m ∈ allMatches doc) : m.1 ≤ doc.length := by
  rw [allMatches] at hm
  rcases List.mem_flatten.mp hm with ⟨l, hl, hml⟩
  rcases List.mem_map.mp hl with ⟨pn, _, rfl⟩
  rcases List.mem_map.mp hml with ⟨sh, hsh, rfl⟩
  have := scanPat_bounds pn.1.data doc.length doc 0 sh hsh
  simpa using this.2

/-- Membership through stable insertion. -/
theorem mem_insertM (m x : Nat × String × String) :
    ∀ l, x ∈ insertM m l ↔ x = m ∨ x ∈ l := by
  intro l
  induction l with
  | nil => simp [insertM]
  | cons y t ih =>
    by_cases hle : m.1 ≤ y.1
    · simp [insertM, hle]
    · simp [insertM, hle, ih]
      tauto

/-- Sorting permutes membership. -/
theorem mem_sortMatches (x : Nat × String × String) :
    ∀ l, x ∈ sortMatches l ↔ x ∈ l := by
  intro l
  induction l with
  | nil => simp [sortMatches]
  | cons y t ih => simp [sortMatches, mem_insertM, ih]

/-- Unfolding `ascStarts` over a cons. -/
theorem ascStarts_cons_iff (x : Nat × String × String)
    (l : List (Nat × String × String)) :
    ascStarts (x :: l) = true ↔
      (∀ y, l.head? = some y → x.1 ≤ y.1) ∧ ascStarts l = true := by
  cases l with
  | nil => simp [ascStarts]
  | cons y t =>
    simp only [ascStarts, Bool.and_eq_true, decide_eq_true_eq]
    constructor
    · rintro ⟨h1, h2⟩
      exact ⟨fun z hz => by rw [← Option.some_inj.mp hz]; exact h1, h2⟩
    · rintro ⟨h1, h2⟩
      exact ⟨h1 y rfl, h2⟩

/-- Stable insertion preserves sortedness. -/
theorem asc_insertM (m : Nat × String × String) :
    ∀ l, ascStarts l = true → ascStarts (insertM m l) = true := by
  intro l
  induction l with
  | nil => intro _; simp [insertM, ascStarts]
  | cons x t ih =>
    intro h
    have h' := (ascStarts_cons_iff x t).mp h
    by_cases hle : m.1 ≤ x.1
    · rw [insertM, if_pos hle, ascStarts_cons_iff]
      refine ⟨fun y hy => ?_, h⟩
      have hxy : x = y := by simpa using hy
      rw [← hxy]; exact hle
    · rw [insertM, if_neg hle, ascStarts_cons_iff]
      refine ⟨fun y hy => ?_, ih h'.2⟩
      cases t with
      | nil =>
        rw [show insertM m [] = [m] from rfl] at hy
        simp at hy
        rw [← hy]; omega
      | cons z ts =>
        rw [insertM] at hy
        by_cases hmz : m.1 ≤ z.1
        · rw [if_pos hmz] at hy
          simp at hy
          rw [← hy]; omega
        · rw [if_neg hmz] at hy
          simp at hy
          rw [← hy]
          exact h'.1 z rfl

/-- The match list sorted by start offset is ascending. -/
theorem asc_sortMatches : ∀ l, ascStarts (sortMatches l) = true := by
  intro l
  induction l with
  | nil => simp [sortMatches, ascStarts]
  | cons x t ih => rw [sortMatches]; exact asc_insertM x (sortMatches t) ih

/-- Telescoping: the preamble plus the section spans cover the document. -/
theorem spans_total (docLen : Nat) :
    ∀ (l : List (Nat × String × String)), ascStarts l = true →
      (∀ x ∈ l, x.1 ≤ docLen) →
      ∀ m rest, l = m :: rest →
        m.1 + (spanLens docLen (l.map (fun x => x.1))).sum = docLen := by
  intro l
  induction l with
  | nil => intro _ _ m rest h; cases h
  | cons x t ih =>
    intro hasc hb m rest hl
    obtain ⟨rfl, rfl⟩ : x = m ∧ t = rest := by
      injection hl with h1 h2; exact ⟨h1, h2⟩
    cases t with
    | nil =>
      have := hb x (by simp)
      simp [spanLens]
      omega
    | cons y ts =>
      have h' := (ascStarts_cons_iff x (y :: ts)).mp hasc
      have hxy : x.1 ≤ y.1 := h'.1 y rfl
      have hrec := ih h'.2 (fun z hz => hb z (List.mem_cons_of_mem _ hz)) y ts rfl
      simp only [List.map_cons, spanLens, List.sum_cons]
      simp only [List.map_cons] at hrec
      omega

/-- C5, amended: the *spans* between sorted header matches are contiguous,
non-overlapping and ascending, and together with the discarded preamble
they cover the document exactly; the stored section `content`, however, is
the stripped span text, so concatenating the produced sections' contents
does not in general preserve the total length. -/
theorem c5_section_spans_cover (doc : String) (m : Nat × String × String)
    (rest : List (Nat × String × String))
    (h : sortedStarts doc = m :: rest) :
    ascStarts (m :: rest) = true ∧
      m.1 + (spanLens doc.length ((m :: rest).map (fun x => x.1))).sum =
        doc.length := by
  have hasc : ascStarts (m :: rest) = true := by
    rw [← h]; exact asc_sortMatches (allMatches doc.data)
  refine ⟨hasc, ?_⟩
  have hb : ∀ x ∈ m :: rest, x.1 ≤ doc.length := by
    intro x hx
    rw [← h] at hx
    have hx' := (mem_sortMatches x (allMatches doc.data)).mp hx
    have := allMatches_bounds doc.data x hx'
    exact this
  exact spans_total doc.length (m :: rest) hasc hb m rest rfl

/-- C5, witness: on the one-header document the single span covers the
whole document (preamble 0, span 21). -/
theorem c5_section_spans_cover_witness :
    ascStarts [(0, "memory_usage", "=== Memory Usage ===")] = true ∧
      0 + (spanLens diagDoc0.length [0]).sum = diagDoc0.length := by
  have h := c5_section_spans_cover diagDoc0
    (0, "memory_usage", "=== Memory Usage ===") [] (by decide)
  simpa using h

/-- C5, counterexample: on the document `"=== Memory Usage ===\n"` the
produced section's stored content is stripped, so the discarded preamble
plus the concatenated section contents has length 20 while the input has
length 21 — the reconstruction does not preserve the total length (there
are no duplicate headers here, so the claim's duplicate-header proviso is
not involved). -/
theorem c5_strip_breaks_reconstruction :
    preambleLen diagDoc0 + contentLenSum (parse_diagnostic_file diagDoc0) ≠
      diagDoc0.length := by decide

end NiFiDiag

/-! ## Component/config precedence (claim C4) -/

namespace NiFi

open JVal JArr JObj

/-- C4, amended: when a `component` envelope with a `config` block is
present, the scheduling period, penalty duration, yield duration, bulletin
level, concurrent tasks and properties mapping take their values from the
config block whenever present there — but the scheduling strategy is *not*
among the overridden fields: it always comes from the unwrapped record. -/
theorem c4_config_overrides (fs cfs gfs : JObj) (nm : JVal) (r : ProcRec)
    (h1 : lookupObj fs "component" = some (jobj cfs))
    (h2 : lookupObj cfs "config" = some (jobj gfs))
    (hr : parse_processor (jobj fs) nm = .ok r) :
    (∀ v, lookupObj gfs "schedulingPeriod" = some v → r.scheduling_period = clean_data v) ∧
    (∀ v, lookupObj gfs "penaltyDuration" = some v → r.penalty_duration = clean_data v) ∧
    (∀ v, lookupObj gfs "yieldDuration" = some v → r.yield_duration = clean_data v) ∧
    (∀ v, lookupObj gfs "bulletinLevel" = some v → r.bulletin_level = clean_data v) ∧
    (∀ v, lookupObj gfs "concurrentlySchedulableTaskCount" = some v → r.concurrent_tasks = v) ∧
    (∀ pfs, lookupObj gfs "properties" = some (jobj pfs) → r.properties = cleanProps [] pfs) ∧
    r.scheduling_strategy = clean_data (jget fs "schedulingStrategy" (jstr "Unknown")) := by
  simp only [parse_processor, parseProcessorCore] at hr
  split at hr
  · cases hr
  · rename_i r0 heq
    injection hr with hh
    subst hh
    split at heq
    · cases heq
    · rename_i st hst
      split at heq
      · cases heq
      · rename_i autoItems hauto
        split at heq
        · cases heq
        · rename_i props hprops
          split at heq
          · cases heq
          · rename_i rels hrels
            rw [applyComponent, h1] at heq
            simp only [h2] at heq
            split at heq
            · cases heq
            · rename_i auto2 hauto2
              split at heq
              · rename_i hnone
                injection heq with he
                subst he
                refine ⟨?_, ?_, ?_, ?_, ?_, ?_, ?_⟩
                · intro v hv; simp [jget, hv]
                · intro v hv; simp [jget, hv]
                · intro v hv; simp [jget, hv]
                · intro v hv; simp [jget, hv]
                · intro v hv; simp [jget, hv]
                · intro pfs2 hpfs2; rw [hnone] at hpfs2; cases hpfs2
                · simp [jget]
              · rename_i pfs hpfs
                injection heq with he
                subst he
                refine ⟨?_, ?_, ?_, ?_, ?_, ?_, ?_⟩
                · intro v hv; simp [jget, hv]
                · intro v hv; simp [jget, hv]
                · intro v hv; simp [jget, hv]
                · intro v hv; simp [jget, hv]
                · intro v hv; simp [jget, hv]
                · intro pfs2 hpfs2
                  rw [hpfs] at hpfs2
                  injection hpfs2 with h3
                  injection h3 with h4
                  subst h4
                  simp
                · simp [jget]
              · cases heq

/-- C4, witness: on the witness record the config block's period, penalty,
yield, bulletin, task count and properties all win, while the scheduling
strategy stays the unwrapped record's `TIMER_DRIVEN`. -/
theorem c4_config_overrides_witness :
    parse_processor (jobj exC4wObj) (jstr "Root") = .ok exC4wRec ∧
    exC4wRec.scheduling_period = clean_data (jstr "1 sec") ∧
    exC4wRec.concurrent_tasks = jnum 3 ∧
    exC4wRec.properties = cleanProps [] (jobjL [("Remote URL", jstr "http://x")]) ∧
    exC4wRec.scheduling_strategy = clean_data (jget exC4wObj "schedulingStrategy" (jstr "Unknown")) := by
  have hr : parse_processor (jobj exC4wObj) (jstr "Root") = .ok exC4wRec := by decide
  have h := c4_config_overrides exC4wObj exC4wCfs exC4wGfs (jstr "Root") exC4wRec
    (by decide) (by decide) hr
  refine ⟨hr, h.1 (jstr "1 sec") (by decide), h.2.2.2.2.1 (jnum 3) (by decide),
    h.2.2.2.2.2.1 (jobjL [("Remote URL", jstr "http://x")]) (by decide),
    h.2.2.2.2.2.2⟩

end NiFi

/-! ## Well-shaped records and groups never raise (claim C1) -/

namespace NiFi
open JVal JArr JObj

theorem isOkE_iff {α : Type} {e : Except PyErr α} : isOkE e = true ↔ ∃ x, e = .ok x := by
  cases e <;> simp [isOkE]

theorem contains_exists {fs : JObj} {k : String} (h : containsObj fs k = true) :
    ∃ v, lookupObj fs k = some v := by
  simpa [containsObj, Option.isSome_iff_exists] using h

theorem contains_false {fs : JObj} {k : String} (h : containsObj fs k = false) :
    lookupObj fs k = none := by
  cases hl : lookupObj fs k with
  | none => rfl
  | some v => rw [containsObj, hl] at h; simp at h

theorem statusDictState_ok (sfs : JObj)
    (h : optIsObjOrAbsent (lookupObj sfs "aggregateSnapshot") = true) :
    isOkE (statusDictState sfs) = true := by
  rw [statusDictState]
  cases hagg : lookupObj sfs "aggregateSnapshot" with
  | none => simp [isOkE]
  | some v =>
    rw [hagg] at h
    cases v <;> simp_all [optIsObjOrAbsent, isOkE]

theorem componentState_ok (cfs : JObj)
    (h : cfgBlockOK (lookupObj cfs "config") = true) :
    isOkE (componentState (jobj cfs)) = true := by
  rw [componentState]
  simp only [pyContains]
  cases h1 : containsObj cfs "state"
  · cases h2 : containsObj cfs "config"
    · simp [isOkE]
    · rcases contains_exists h2 with ⟨cfg, hcfg⟩
      rw [hcfg] at h
      cases cfg with
      | jobj gfs =>
        simp only [pySub, hcfg, pyContains]
        cases containsObj gfs "schedulingStrategy"
        · simp [isOkE]
        · split
          · rename_i heq; simp at heq
          · rename_i heq; simp at heq
          · split <;> simp [isOkE]
      | jnull => simp [cfgBlockOK] at h
      | jbool b => simp [cfgBlockOK] at h
      | jnum n => simp [cfgBlockOK] at h
      | jstr s => simp [cfgBlockOK] at h
      | jarr xs => simp [cfgBlockOK] at h
  · rcases contains_exists h1 with ⟨v, hv⟩
    simp [pySub, hv, isOkE]

theorem rawState_ok (fs : JObj) (hs : statusOK fs = true) (hc : componentOK fs = true) :
    isOkE (rawProcessorState (jobj fs)) = true := by
  rw [rawProcessorState]
  simp only [pyContains]
  cases h1 : containsObj fs "state"
  · cases h2 : containsObj fs "component"
    · cases h5 : containsObj fs "status"
      · cases h6 : containsObj fs "runStatus"
        · cases hft : firstTruthyPath (jobj fs) nestedPaths <;> simp [isOkE]
        · rcases contains_exists h6 with ⟨v, hv⟩
          simp [pySub, hv, isOkE]
      · rcases contains_exists h5 with ⟨st, hst⟩
        simp only [pySub, hst]
        rw [statusOK, hst] at hs
        cases st with
        | jobj sfs => exact statusDictState_ok sfs hs
        | jnull => simp [isOkE]
        | jbool b => simp [isOkE]
        | jnum n => simp [isOkE]
        | jstr s => simp [isOkE]
        | jarr xs => simp [isOkE]
    · rcases contains_exists h2 with ⟨comp, hcomp⟩
      rw [componentOK, hcomp] at hc
      simp only [pySub, hcomp]
      cases comp with
      | jobj cfs => exact componentState_ok cfs hc
      | jnull => simp at hc
      | jbool b => simp at hc
      | jnum n => simp at hc
      | jstr s => simp at hc
      | jarr xs => simp at hc
  · rcases contains_exists h1 with ⟨v, hv⟩
    simp [pySub, hv, isOkE]

theorem get_ok (fs : JObj) (hs : statusOK fs = true) (hc : componentOK fs = true) :
    isOkE (get_processor_state (jobj fs)) = true := by
  rw [get_processor_state]
  rcases isOkE_iff.mp (rawState_ok fs hs hc) with ⟨v, hv⟩
  rw [hv]
  cases v <;> simp [isOkE]
end NiFi

namespace NiFi
open JVal JArr JObj

theorem iterate_jget_arr_ok (fs : JObj) (k : String) (d : JArr)
    (h : optIsArrOrAbsent (lookupObj fs k) = true) :
    isOkE (pyIterate (jget fs k (jarr d))) = true := by
  rw [jget]
  cases hl : lookupObj fs k with
  | none => simp [pyIterate, isOkE]
  | some v =>
    rw [hl] at h
    cases v <;> simp_all [optIsArrOrAbsent, pyIterate, isOkE]

theorem extractProps_ok (fs : JObj)
    (hp : optIsObjOrAbsent (lookupObj fs "properties") = true)
    (hc : cfgBlockOK (lookupObj fs "config") = true) :
    isOkE (extractProps fs) = true := by
  rw [extractProps]
  split
  · rename_i hcase
    rcases contains_exists (by
      rcases Bool.and_eq_true_iff.mp hcase with ⟨ha, _⟩; exact ha) with ⟨v, hv⟩
    rw [hv] at hp ⊢
    cases v <;> simp_all [optIsObjOrAbsent, isOkE]
  · cases hcfg : lookupObj fs "config" with
    | none => simp [isOkE]
    | some cfg =>
      rw [hcfg] at hc
      cases cfg with
      | jobj gfs =>
        simp only [pyContains]
        cases h3 : containsObj gfs "properties"
        · simp [isOkE]
        · rcases contains_exists h3 with ⟨pv, hpv⟩
          simp only [pySub, hpv]
          rcases Bool.and_eq_true_iff.mp hc with ⟨hgp, _⟩
          rw [hpv] at hgp
          cases pv <;> simp_all [optIsObjOrAbsent, isOkE]
      | jnull => simp [cfgBlockOK] at hc
      | jbool b => simp [cfgBlockOK] at hc
      | jnum n => simp [cfgBlockOK] at hc
      | jstr s => simp [cfgBlockOK] at hc
      | jarr xs => simp [cfgBlockOK] at hc

theorem mapME_ok_of_all {α β : Type} (f : α → Except PyErr β) :
    ∀ (l : List α), (∀ x ∈ l, isOkE (f x) = true) → isOkE (mapME f l) = true := by
  intro l
  induction l with
  | nil => intro _; simp [mapME, isOkE]
  | cons x t ih =>
    intro h
    rw [mapME]
    rcases isOkE_iff.mp (h x (by simp)) with ⟨y, hy⟩
    rw [hy]
    rcases isOkE_iff.mp (ih (fun z hz => h z (List.mem_cons_of_mem _ hz))) with ⟨ys, hys⟩
    rw [hys]
    simp [isOkE]

theorem relsArr_parse_ok : ∀ (xs : JArr), relsArrOK xs = true →
    ∀ x ∈ xs.toList, isOkE (parseRel x) = true
  | .nil, _ => by intro x hx; simp [JArr.toList] at hx
  | .cons v tl, h => by
    intro x hx
    cases v <;> simp [relsArrOK] at h
    rw [JArr.toList] at hx
    rcases List.mem_cons.mp hx with hx | hx
    · rw [hx]; simp [parseRel, isOkE]
    · exact relsArr_parse_ok tl h x hx

theorem extractRels_ok (fs : JObj) (h : relsOK fs = true) :
    isOkE (extractRels fs) = true := by
  rw [extractRels]
  cases hl : lookupObj fs "relationships" with
  | none => simp [isOkE]
  | some w =>
    rw [relsOK, hl] at h
    cases w with
    | jarr xs =>
      simp only [pyIterate]
      exact mapME_ok_of_all parseRel xs.toList (relsArr_parse_ok xs h)
    | jnull => simp at h
    | jbool b => simp at h
    | jnum n => simp at h
    | jstr s => simp at h
    | jobj o => simp at h

theorem applyComponent_ok (fs : JObj) (r : ProcRec)
    (hc : componentOK fs = true) :
    isOkE (applyComponent fs r) = true := by
  rw [applyComponent]
  cases hl : lookupObj fs "component" with
  | none => simp [isOkE]
  | some comp =>
    rw [componentOK, hl] at hc
    cases comp with
    | jobj cfs =>
      replace hc : cfgBlockOK (lookupObj cfs "config") = true := hc
      cases hcfg : lookupObj cfs "config" with
      | none => simp [hcfg, isOkE]
      | some cfgv =>
        simp only [hcfg]
        rw [hcfg] at hc
        cases cfgv with
        | jobj gfs =>
          simp only []
          rcases Bool.and_eq_true_iff.mp hc with ⟨hgp, hga⟩
          rcases isOkE_iff.mp (iterate_jget_arr_ok gfs "autoTerminatedRelationships"
            (strsToJArr r.auto_terminated_relationships) hga) with ⟨items, hitems⟩
          rw [hitems]
          cases hgp2 : lookupObj gfs "properties" with
          | none => simp [hgp2, isOkE]
          | some pv =>
            simp only [hgp2]
            rw [hgp2] at hgp
            cases pv <;> simp_all [optIsObjOrAbsent, isOkE]
        | jnull => simp [cfgBlockOK] at hc
        | jbool b => simp [cfgBlockOK] at hc
        | jnum n => simp [cfgBlockOK] at hc
        | jstr s => simp [cfgBlockOK] at hc
        | jarr xs => simp [cfgBlockOK] at hc
    | jnull => simp at hc
    | jbool b => simp at hc
    | jnum n => simp at hc
    | jstr s => simp at hc
    | jarr xs => simp at hc

theorem wellShaped_parse_ok (fs : JObj) (nm : JVal)
    (h : wellShapedProc fs = true) :
    isOkE (parse_processor (jobj fs) nm) = true := by
  rw [wellShapedProc] at h
  simp only [Bool.and_eq_true] at h
  obtain ⟨⟨⟨⟨⟨hs, hr⟩, hp⟩, hcfg⟩, hauto⟩, hcomp⟩ := h
  rw [parse_processor, parseProcessorCore]
  rcases isOkE_iff.mp (get_ok fs hs hcomp) with ⟨st, hst⟩
  rw [hst]
  simp only []
  rcases isOkE_iff.mp (iterate_jget_arr_ok fs "autoTerminatedRelationships" .nil hauto)
    with ⟨items, hitems⟩
  rw [hitems]
  simp only []
  rcases isOkE_iff.mp (extractProps_ok fs hp hcfg) with ⟨props, hprops⟩
  rw [hprops]
  simp only []
  rcases isOkE_iff.mp (extractRels_ok fs hr) with ⟨rels, hrels⟩
  rw [hrels]
  simp only []
  suffices hgen : ∀ rr : ProcRec, isOkE (match applyComponent fs rr with
      | Except.error e => Except.error e
      | Except.ok r => Except.ok { r with group := clean_data nm }) = true by
    exact hgen _
  intro rr
  rcases isOkE_iff.mp (applyComponent_ok fs rr hcomp) with ⟨r0, hr0⟩
  rw [hr0]
  simp [isOkE]
end NiFi

namespace NiFi
open JVal JArr JObj

theorem procsArr_parse_ok : ∀ (xs : JArr), procsArrOK xs = true →
    ∀ (nm : JVal) (x : JVal), x ∈ xs.toList → isOkE (parse_processor x nm) = true
  | .nil, _ => by intro nm x hx; simp [JArr.toList] at hx
  | .cons v tl, h => by
    intro nm x hx
    cases v with
    | jobj fs' =>
      replace h : (wellShapedProc fs' && procsArrOK tl) = true := h
      rcases Bool.and_eq_true_iff.mp h with ⟨h1, h2⟩
      rw [JArr.toList] at hx
      rcases List.mem_cons.mp hx with hx | hx
      · rw [hx]; exact wellShaped_parse_ok fs' nm h1
      · exact procsArr_parse_ok tl h2 nm x hx
    | jnull => simp [procsArrOK] at h
    | jbool b => simp [procsArrOK] at h
    | jnum n => simp [procsArrOK] at h
    | jstr s => simp [procsArrOK] at h
    | jarr ys => simp [procsArrOK] at h

theorem procPart_ok (fs : JObj) (nm : JVal)
    (h : procsOK (lookupObj fs "processors") = true) :
    isOkE (procPart fs nm) = true := by
  rw [procPart]
  by_cases hc : containsObj fs "processors" = true
  · rw [if_pos hc]
    rcases contains_exists hc with ⟨v, hv⟩
    rw [hv] at h ⊢
    cases v with
    | jarr xs =>
      simp only [pyIterate]
      replace h : procsArrOK xs = true := h
      exact mapME_ok_of_all _ xs.toList (fun x hx => procsArr_parse_ok xs h nm x hx)
    | jnull => simp [procsOK] at h
    | jbool b => simp [procsOK] at h
    | jnum n => simp [procsOK] at h
    | jstr s => simp [procsOK] at h
    | jobj o => simp [procsOK] at h
  · rw [if_neg hc]; simp [isOkE]

mutual
theorem goodGroup_extract_ok : ∀ (g : JVal) (nm : JVal), goodGroupV g = true →
    isOkE (extract_processors_from_group g nm) = true
  | jobj fs, nm, h => by
    rw [extract_processors_from_group]
    replace h : (procsOK (lookupObj fs "processors") && pgOK fs) = true := h
    rcases Bool.and_eq_true_iff.mp h with ⟨h1, h2⟩
    rcases isOkE_iff.mp (procPart_ok fs nm h1) with ⟨ps, hps⟩
    rw [hps]
    rcases isOkE_iff.mp (pgPart_ok fs nm h2) with ⟨cs, hcs⟩
    rw [hcs]
    simp [isOkE]
  | jnull, _, h => by simp [goodGroupV] at h
  | jbool b, _, h => by simp [goodGroupV] at h
  | jnum n, _, h => by simp [goodGroupV] at h
  | jstr s, _, h => by simp [goodGroupV] at h
  | jarr xs, _, h => by simp [goodGroupV] at h

theorem pgPart_ok : ∀ (o : JObj) (nm : JVal), pgOK o = true →
    isOkE (pgPart o nm) = true
  | .nil, nm, _ => by simp [pgPart, isOkE]
  | .cons k w tl, nm, h => by
    rw [pgPart]
    by_cases hk : k = "processGroups"
    · rw [if_pos hk]
      rw [pgOK, if_pos hk] at h
      exact iterChildren_ok w nm h
    · rw [if_neg hk]
      rw [pgOK, if_neg hk] at h
      exact pgPart_ok tl nm h

theorem iterChildren_ok : ∀ (w : JVal) (nm : JVal), goodChildren w = true →
    isOkE (iterChildren w nm) = true
  | jarr xs, nm, h => by
    rw [iterChildren]
    replace h : goodChildrenArr xs = true := h
    exact childrenArr_ok xs nm h
  | jnull, _, h => by simp [goodChildren] at h
  | jbool b, _, h => by simp [goodChildren] at h
  | jnum n, _, h => by simp [goodChildren] at h
  | jstr s, _, h => by simp [goodChildren] at h
  | jobj o, _, h => by simp [goodChildren] at h

theorem childrenArr_ok : ∀ (a : JArr) (nm : JVal), goodChildrenArr a = true →
    isOkE (childrenArr a nm) = true
  | .nil, nm, _ => by simp [childrenArr, isOkE]
  | .cons c tl, nm, h => by
    replace h : (goodGroupV c && goodChildrenArr tl) = true := h
    rcases Bool.and_eq_true_iff.mp h with ⟨h1, h2⟩
    cases c with
    | jobj cfs =>
      rw [childrenArr]
      suffices hgen : ∀ full : JVal,
          isOkE (match extract_processors_from_group (jobj cfs) full with
            | Except.error e => Except.error e
            | Except.ok rs =>
              match childrenArr tl nm with
              | Except.error e => Except.error e
              | Except.ok rest => Except.ok (rs ++ rest)) = true by
        exact hgen _
      intro full
      rcases isOkE_iff.mp (goodGroup_extract_ok (jobj cfs) full h1) with ⟨rs, hrs⟩
      rw [hrs]
      rcases isOkE_iff.mp (childrenArr_ok tl nm h2) with ⟨rest, hrest⟩
      rw [hrest]
      simp [isOkE]
    | jnull => simp [goodGroupV] at h1
    | jbool b => simp [goodGroupV] at h1
    | jnum n => simp [goodGroupV] at h1
    | jstr s => simp [goodGroupV] at h1
    | jarr xs => simp [goodGroupV] at h1
end

end NiFi

namespace NiFi
open JVal JArr JObj
/-- C1, amended: key absence degrades to defaults only for well-shaped
mapping nodes: on a well-shaped group tree (every record and child group a
dict whose container-valued fields have the expected type, any of which may
be absent), `extract_processors_from_group` never raises.  Ill-typed nodes
are not absorbed (see the counterexample: a matched envelope without its
expected subtree raises a `KeyError`). -/
theorem c1_wellShaped_never_raises (g : JVal) (nm : JVal)
    (h : goodGroupV g = true) :
    isOkE (extract_processors_from_group g nm) = true :=
  goodGroup_extract_ok g nm h

/-- C1, witness: a concrete well-shaped two-level group tree extracts
without raising. -/
theorem c1_wellShaped_never_raises_witness :
    isOkE (extract_processors_from_group exC1w (jstr "Root")) = true :=
  c1_wellShaped_never_raises exC1w (jstr "Root") (by decide)
end NiFi

/-! ## The fallback finds at least as many records (claim C8) -/

namespace NiFi
open JVal JArr JObj

theorem isOkE_parse_eq_core (v : JVal) (nm : JVal) :
    isOkE (parse_processor v nm) = isOkE (parseProcessorCore v) := by
  cases h : parseProcessorCore v <;> simp [parse_processor, h, isOkE]

theorem parse_nonobj_fails (v : JVal) (nm : JVal) (h : isObjJ v = false) :
    isOkE (parse_processor v nm) = false := by
  rw [isOkE_parse_eq_core]
  cases v with
  | jobj fs => simp [isObjJ] at h
  | jnull => rw [parseProcessorCore]; cases get_processor_state jnull <;> simp [isOkE]
  | jbool b => rw [parseProcessorCore]; cases get_processor_state (jbool b) <;> simp [isOkE]
  | jnum n => rw [parseProcessorCore]; cases get_processor_state (jnum n) <;> simp [isOkE]
  | jstr s => rw [parseProcessorCore]; cases get_processor_state (jstr s) <;> simp [isOkE]
  | jarr xs => rw [parseProcessorCore]; cases get_processor_state (jarr xs) <;> simp [isOkE]

theorem mapME_length {α β : Type} (f : α → Except PyErr β) :
    ∀ (l : List α) (ys : List β), mapME f l = .ok ys → ys.length = l.length := by
  intro l
  induction l with
  | nil => intro ys h; rw [mapME] at h; injection h with h; subst h; rfl
  | cons x t ih =>
    intro ys h
    rw [mapME] at h
    cases hx : f x with
    | error e => rw [hx] at h; cases h
    | ok y =>
      rw [hx] at h
      cases ht : mapME f t with
      | error e => rw [ht] at h; cases h
      | ok zs =>
        rw [ht] at h
        injection h with h
        subst h
        simp [ih zs ht]

theorem mapME_head_ok {α β : Type} (f : α → Except PyErr β) (x : α) (t : List α)
    (ys : List β) (h : mapME f (x :: t) = .ok ys) : isOkE (f x) = true := by
  rw [mapME] at h
  cases hx : f x with
  | error e => rw [hx] at h; cases h
  | ok y => simp [isOkE]

theorem mapME_parse_isOk (a b : JVal) :
    ∀ (l : List JVal),
      isOkE (mapME (fun it => parse_processor it a) l) =
        isOkE (mapME (fun it => parse_processor it b) l) := by
  intro l
  induction l with
  | nil => simp [mapME]
  | cons x t ih =>
    rw [mapME, mapME]
    have hx : isOkE (parse_processor x a) = isOkE (parse_processor x b) := by
      rw [isOkE_parse_eq_core, isOkE_parse_eq_core]
    cases ha : parse_processor x a with
    | error e =>
      rw [ha] at hx
      cases hb : parse_processor x b with
      | error e2 => simp [isOkE]
      | ok y => rw [hb] at hx; simp [isOkE] at hx
    | ok y =>
      rw [ha] at hx
      cases hb : parse_processor x b with
      | error e2 => rw [hb] at hx; simp [isOkE] at hx
      | ok z =>
        cases hta : mapME (fun it => parse_processor it a) t with
        | error e =>
          rw [hta] at ih
          cases htb : mapME (fun it => parse_processor it b) t with
          | error e2 => simp [isOkE]
          | ok ys => rw [htb] at ih; simp [isOkE] at ih
        | ok ys =>
          rw [hta] at ih
          cases htb : mapME (fun it => parse_processor it b) t with
          | error e2 => rw [htb] at ih; simp [isOkE] at ih
          | ok zs => simp [isOkE]

end NiFi


namespace NiFi
open JVal JArr JObj

theorem procPart_len_eq (fs : JObj) (nm : JVal) (path : String)
    (ps ps2 : List ProcRec)
    (hpp : procPart fs nm = .ok ps) (hfp : findProcsHere fs path = .ok ps2) :
    ps.length = ps2.length := by
  rw [procPart] at hpp
  rw [findProcsHere] at hfp
  by_cases hc : containsObj fs "processors" = true
  · rw [if_pos hc] at hpp
    rcases contains_exists hc with ⟨v, hv⟩
    simp only [hv] at hpp hfp
    cases v with
    | jarr xs =>
      simp only [pyIterate] at hpp
      rw [mapME_length _ xs.toList ps hpp, mapME_length _ xs.toList ps2 hfp]
    | jobj o =>
      injection hfp with hfp
      cases o with
      | nil =>
        simp only [pyIterate, JObj.toList, List.map_nil, mapME] at hpp
        injection hpp with hpp
        rw [← hpp, ← hfp]
      | cons k v0 tl =>
        simp only [pyIterate, JObj.toList, List.map_cons] at hpp
        have := mapME_head_ok _ _ _ _ hpp
        rw [parse_nonobj_fails _ nm (by rfl)] at this
        cases this
    | jstr s =>
      injection hfp with hfp
      simp only [pyIterate] at hpp
      cases hs : s.data with
      | nil =>
        rw [hs] at hpp
        simp only [List.map_nil, mapME] at hpp
        injection hpp with hpp
        rw [← hpp, ← hfp]
      | cons c cs0 =>
        rw [hs] at hpp
        simp only [List.map_cons] at hpp
        have := mapME_head_ok _ _ _ _ hpp
        rw [parse_nonobj_fails _ nm (by rfl)] at this
        cases this
    | jnull => simp only [pyIterate] at hpp; injection hpp
    | jbool b => simp only [pyIterate] at hpp; injection hpp
    | jnum n => simp only [pyIterate] at hpp; injection hpp
  · rw [if_neg hc] at hpp
    injection hpp with hpp
    have hl := contains_false (by simpa using hc)
    simp only [hl] at hfp
    injection hfp with hfp
    rw [← hpp, ← hfp]

mutual
theorem extract_le_find : ∀ (g : JVal) (nm : JVal) (path : String)
    (rs fsr : List ProcRec),
    extract_processors_from_group g nm = .ok rs →
    find_processors_recursively g path = .ok fsr →
    rs.length ≤ fsr.length
  | jobj fs, nm, path, rs, fsr, hx, hf => by
    rw [extract_processors_from_group] at hx
    rw [find_processors_recursively] at hf
    cases hpp : procPart fs nm with
    | error e => simp only [hpp] at hx; injection hx
    | ok ps =>
      simp only [hpp] at hx
      cases hpg : pgPart fs nm with
      | error e => simp only [hpg] at hx; injection hx
      | ok cs =>
        simp only [hpg] at hx
        injection hx with hx
        cases hfp : findProcsHere fs path with
        | error e => simp only [hfp] at hf; injection hf
        | ok ps2 =>
          simp only [hfp] at hf
          cases hfo : findObj fs path with
          | error e => simp only [hfo] at hf; injection hf
          | ok rest =>
            simp only [hfo] at hf
            injection hf with hf
            have hlen1 : ps.length = ps2.length :=
              procPart_len_eq fs nm path ps ps2 hpp hfp
            have hlen2 : cs.length ≤ rest.length :=
              pgPart_le_findObj fs nm path cs rest hpg hfo
            rw [← hx, ← hf]
            simp only [List.length_append]
            omega
  | jarr xs, nm, path, rs, fsr, hx, hf => by
    rw [extract_processors_from_group] at hx
    by_cases h1 : arrHasStr xs "processors" = true
    · rw [if_pos h1] at hx; injection hx
    · rw [if_neg h1] at hx
      by_cases h2 : arrHasStr xs "processGroups" = true
      · rw [if_pos h2] at hx; injection hx
      · rw [if_neg h2] at hx
        injection hx with hx
        rw [← hx]
        simp
  | jstr s, nm, path, rs, fsr, hx, hf => by
    rw [extract_processors_from_group] at hx
    by_cases h1 : strContains s "processors" = true
    · rw [if_pos h1] at hx; injection hx
    · rw [if_neg h1] at hx
      by_cases h2 : strContains s "processGroups" = true
      · rw [if_pos h2] at hx; injection hx
      · rw [if_neg h2] at hx
        injection hx with hx
        rw [← hx]
        simp
  | jnull, nm, path, rs, fsr, hx, hf => by
    rw [extract_processors_from_group] at hx; injection hx
    · intro fs2 h2; cases h2
    · intro xs2 h2; cases h2
    · intro s2 h2; cases h2
  | jbool b, nm, path, rs, fsr, hx, hf => by
    rw [extract_processors_from_group] at hx; injection hx
    · intro fs2 h2; cases h2
    · intro xs2 h2; cases h2
    · intro s2 h2; cases h2
  | jnum n, nm, path, rs, fsr, hx, hf => by
    rw [extract_processors_from_group] at hx; injection hx
    · intro fs2 h2; cases h2
    · intro xs2 h2; cases h2
    · intro s2 h2; cases h2

theorem pgPart_le_findObj : ∀ (o : JObj) (nm : JVal) (path : String)
    (cs rest : List ProcRec),
    pgPart o nm = .ok cs → findObj o path = .ok rest →
    cs.length ≤ rest.length
  | .nil, nm, path, cs, rest, hpg, hfo => by
    rw [pgPart] at hpg
    injection hpg with hpg
    rw [← hpg]
    simp
  | .cons k w tl, nm, path, cs, rest, hpg, hfo => by
    rw [pgPart] at hpg
    rw [findObj] at hfo
    by_cases hk : k = "processGroups"
    · rw [if_pos hk] at hpg
      have hk2 : ¬ k = "processors" := by rw [hk]; decide
      rw [if_neg hk2] at hfo
      cases hfw : find_processors_recursively w (path ++ "." ++ k) with
      | error e => simp only [hfw] at hfo; injection hfo
      | ok rsw =>
        simp only [hfw] at hfo
        cases hto : findObj tl path with
        | error e => simp only [hto] at hfo; injection hfo
        | ok rest2 =>
          simp only [hto] at hfo
          injection hfo with hfo
          have h1 := iterChildren_le_find w nm (path ++ "." ++ k) cs rsw hpg hfw
          rw [← hfo]
          simp only [List.length_append]
          omega
    · rw [if_neg hk] at hpg
      by_cases hk3 : k = "processors"
      · rw [if_pos hk3] at hfo
        exact pgPart_le_findObj tl nm path cs rest hpg hfo
      · rw [if_neg hk3] at hfo
        cases hfw : find_processors_recursively w (path ++ "." ++ k) with
        | error e => simp only [hfw] at hfo; injection hfo
        | ok rsw =>
          simp only [hfw] at hfo
          cases hto : findObj tl path with
          | error e => simp only [hto] at hfo; injection hfo
          | ok rest2 =>
            simp only [hto] at hfo
            injection hfo with hfo
            have h1 := pgPart_le_findObj tl nm path cs rest2 hpg hto
            rw [← hfo]
            simp only [List.length_append]
            omega

theorem iterChildren_le_find : ∀ (w : JVal) (nm : JVal) (path : String)
    (cs rsw : List ProcRec),
    iterChildren w nm = .ok cs → find_processors_recursively w path = .ok rsw →
    cs.length ≤ rsw.length
  | jarr xs, nm, path, cs, rsw, hic, hf => by
    rw [iterChildren] at hic
    rw [find_processors_recursively] at hf
    exact childrenArr_le_findArr xs nm path 0 cs rsw hic hf
  | jobj .nil, nm, path, cs, rsw, hic, hf => by
    rw [iterChildren] at hic
    injection hic with hic
    rw [← hic]
    simp
  | jobj (.cons k v tl), nm, path, cs, rsw, hic, hf => by
    rw [iterChildren] at hic
    injection hic
  | jstr s, nm, path, cs, rsw, hic, hf => by
    rw [iterChildren] at hic
    by_cases hs : s.isEmpty = true
    · rw [if_pos hs] at hic
      injection hic with hic
      rw [← hic]
      simp
    · rw [if_neg hs] at hic
      injection hic
  | jnull, nm, path, cs, rsw, hic, hf => by
    rw [iterChildren] at hic
    · injection hic
    all_goals intros
    all_goals rename_i h2
    all_goals cases h2
  | jbool b, nm, path, cs, rsw, hic, hf => by
    rw [iterChildren] at hic
    · injection hic
    all_goals intros
    all_goals rename_i h2
    all_goals cases h2
  | jnum n, nm, path, cs, rsw, hic, hf => by
    rw [iterChildren] at hic
    · injection hic
    all_goals intros
    all_goals rename_i h2
    all_goals cases h2

theorem childrenArr_le_findArr : ∀ (a : JArr) (nm : JVal) (path : String)
    (i : Nat) (cs rsa : List ProcRec),
    childrenArr a nm = .ok cs → findArr a path i = .ok rsa →
    cs.length ≤ rsa.length
  | .nil, nm, path, i, cs, rsa, hca, hfa => by
    rw [childrenArr] at hca
    injection hca with hca
    rw [← hca]
    simp
  | .cons c tl, nm, path, i, cs, rsa, hca, hfa => by
    rw [findArr] at hfa
    cases c with
    | jobj cfs =>
      rw [childrenArr] at hca
      have hinv : ∀ (full : JVal),
          (match extract_processors_from_group (jobj cfs) full with
            | Except.error e => Except.error e
            | Except.ok rs =>
              match childrenArr tl nm with
              | Except.error e => Except.error e
              | Except.ok rest => Except.ok (rs ++ rest)) = .ok cs →
          ∃ rs rest, extract_processors_from_group (jobj cfs) full = .ok rs ∧
            childrenArr tl nm = .ok rest ∧ cs = rs ++ rest := by
        intro full hca2
        cases hx : extract_processors_from_group (jobj cfs) full with
        | error e => simp only [hx] at hca2; injection hca2
        | ok rs =>
          simp only [hx] at hca2
          cases ht : childrenArr tl nm with
          | error e => simp only [ht] at hca2; injection hca2
          | ok rest =>
            simp only [ht] at hca2
            injection hca2 with hca2
            exact ⟨rs, rest, rfl, rfl, hca2.symm⟩
      rcases hinv _ hca with ⟨rs, rest, hx, ht, hcs⟩
      cases hfc : find_processors_recursively (jobj cfs)
          (path ++ "[" ++ toString i ++ "]") with
      | error e => simp only [hfc] at hfa; injection hfa
      | ok rc =>
        simp only [hfc] at hfa
        cases hft : findArr tl path (i + 1) with
        | error e => simp only [hft] at hfa; injection hfa
        | ok rtl =>
          simp only [hft] at hfa
          injection hfa with hfa
          have h1 := extract_le_find (jobj cfs) _ _ rs rc hx hfc
          have h2 := childrenArr_le_findArr tl nm path (i + 1) rest rtl ht hft
          rw [hcs, ← hfa]
          simp only [List.length_append]
          omega
    | jnull => simp only [childrenArr] at hca; injection hca
    | jbool b => simp only [childrenArr] at hca; injection hca
    | jnum n => simp only [childrenArr] at hca; injection hca
    | jstr s => simp only [childrenArr] at hca; injection hca
    | jarr xs => simp only [childrenArr] at hca; injection hca
end

end NiFi

namespace NiFi
open JVal JArr JObj

theorem findObj_entry : ∀ (o : JObj) (path : String) (k : String) (v : JVal)
    (rest : List ProcRec),
    findObj o path = .ok rest → lookupObj o k = some v → ¬ k = "processors" →
    ∃ sub, find_processors_recursively v (path ++ "." ++ k) = .ok sub ∧
      sub.length ≤ rest.length
  | .nil, path, k, v, rest, hfo, hl, hk => by
    rw [lookupObj] at hl; cases hl
  | .cons k0 v0 tl, path, k, v, rest, hfo, hl, hk => by
    rw [findObj] at hfo
    rw [lookupObj] at hl
    by_cases hk0 : k0 = k
    · rw [if_pos hk0] at hl
      injection hl with hl
      have hk2 : ¬ k0 = "processors" := by rw [hk0]; exact hk
      rw [if_neg hk2] at hfo
      cases hfw : find_processors_recursively v0 (path ++ "." ++ k0) with
      | error e => simp only [hfw] at hfo; injection hfo
      | ok rs0 =>
        simp only [hfw] at hfo
        cases hto : findObj tl path with
        | error e => simp only [hto] at hfo; injection hfo
        | ok rest2 =>
          simp only [hto] at hfo
          injection hfo with hfo
          refine ⟨rs0, ?_, ?_⟩
          · rw [← hk0, ← hl]; exact hfw
          · rw [← hfo]; simp
    · rw [if_neg hk0] at hl
      by_cases hp : k0 = "processors"
      · rw [if_pos hp] at hfo
        exact findObj_entry tl path k v rest hfo hl hk
      · rw [if_neg hp] at hfo
        cases hfw : find_processors_recursively v0 (path ++ "." ++ k0) with
        | error e => simp only [hfw] at hfo; injection hfo
        | ok rs0 =>
          simp only [hfw] at hfo
          cases hto : findObj tl path with
          | error e => simp only [hto] at hfo; injection hfo
          | ok rest2 =>
            simp only [hto] at hfo
            injection hfo with hfo
            rcases findObj_entry tl path k v rest2 hto hl hk with ⟨sub, hsub, hlen⟩
            refine ⟨sub, hsub, ?_⟩
            rw [← hfo]
            simp only [List.length_append]
            omega

/-- A successful string subscript certifies that the subscripted value is a
dict holding the key. -/
theorem pySub_ok_obj : ∀ (v : JVal) (k : String) (w : JVal),
    pySub v k = .ok w → ∃ o, v = jobj o ∧ lookupObj o k = some w
  | jobj fs, k, w, h => by
    rw [pySub] at h
    refine ⟨fs, rfl, ?_⟩
    cases hl : lookupObj fs k with
    | none => simp only [hl] at h; injection h
    | some u => simp only [hl] at h; injection h with h; rw [h]
  | jnull, k, w, h => by
    rw [pySub] at h
    · injection h
    all_goals intros
    all_goals rename_i h2
    all_goals cases h2
  | jbool b, k, w, h => by
    rw [pySub] at h
    · injection h
    all_goals intros
    all_goals rename_i h2
    all_goals cases h2
  | jnum n, k, w, h => by
    rw [pySub] at h
    · injection h
    all_goals intros
    all_goals rename_i h2
    all_goals cases h2
  | jstr s, k, w, h => by
    rw [pySub] at h
    · injection h
    all_goals intros
    all_goals rename_i h2
    all_goals cases h2
  | jarr xs, k, w, h => by
    rw [pySub] at h
    · injection h
    all_goals intros
    all_goals rename_i h2
    all_goals cases h2

/-- When the fallback succeeds on a dict, it also succeeds on each entry
whose key is not `processors`, contributing at most the total count. -/
theorem find_desc_step (fs : JObj) (path k : String) (v : JVal)
    (fsr : List ProcRec) (hk : ¬ k = "processors")
    (hl : lookupObj fs k = some v)
    (hf : find_processors_recursively (jobj fs) path = .ok fsr) :
    ∃ sub, find_processors_recursively v (path ++ "." ++ k) = .ok sub ∧
      sub.length ≤ fsr.length := by
  rw [find_processors_recursively] at hf
  cases hfp : findProcsHere fs path with
  | error e => simp only [hfp] at hf; injection hf
  | ok ps2 =>
    simp only [hfp] at hf
    cases hfo : findObj fs path with
    | error e => simp only [hfo] at hf; injection hf
    | ok rest =>
      simp only [hfo] at hf
      injection hf with hf
      rcases findObj_entry fs path k v rest hfo hl hk with ⟨sub, hsub, hlen⟩
      refine ⟨sub, hsub, ?_⟩
      rw [← hf]
      simp only [List.length_append]
      omega

/-- C8, amended: *provided the unguided fallback itself completes without
raising*, then whichever structured envelope `parse_flow`'s dispatch chain
selects (`flowContents`, `processGroupFlow.flow`,
`versionedFlowSnapshot.flowContents`, `flow`, a top-level `processors`
list, or the unknown-format case), running the fallback on the whole
document finds at least as many records as the chain found for that region
(the counterexample shows the proviso is needed: a malformed `processors`
list elsewhere makes the fallback raise). -/
theorem c8_structured_le_fallback (d : JVal) (rs fsr : List ProcRec)
    (hx : parseFlowChain d = .ok rs)
    (hf : find_processors_recursively d "root" = .ok fsr) :
    rs.length ≤ fsr.length := by
  cases d with
  | jnull =>
    rw [parseFlowChain] at hx
    have hpc : pyContains jnull "flowContents" = .error .typeError := rfl
    simp only [hpc] at hx
    injection hx
  | jbool b =>
    rw [parseFlowChain] at hx
    have hpc : pyContains (jbool b) "flowContents" = .error .typeError := rfl
    simp only [hpc] at hx
    injection hx
  | jnum n =>
    rw [parseFlowChain] at hx
    have hpc : pyContains (jnum n) "flowContents" = .error .typeError := rfl
    simp only [hpc] at hx
    injection hx
  | jstr s =>
    rw [parseFlowChain] at hx
    cases hc1 : strContains s "flowContents" with
    | true =>
      simp only [pyContains, hc1] at hx
      have hps : pySub (jstr s) "flowContents" = .error .typeError := rfl
      simp only [hps] at hx
      injection hx
    | false =>
      simp only [pyContains, hc1] at hx
      cases hc2 : strContains s "processGroupFlow" with
      | true =>
        simp only [hc2] at hx
        have hps : pySub (jstr s) "processGroupFlow" = .error .typeError := rfl
        simp only [hps] at hx
        injection hx
      | false =>
        simp only [hc2] at hx
        cases hc3 : strContains s "versionedFlowSnapshot" with
        | true =>
          simp only [hc3] at hx
          have hps : pySub (jstr s) "versionedFlowSnapshot" = .error .typeError := rfl
          simp only [hps] at hx
          injection hx
        | false =>
          simp only [hc3] at hx
          cases hc4 : strContains s "flow" with
          | true =>
            simp only [hc4] at hx
            have hps : pySub (jstr s) "flow" = .error .typeError := rfl
            simp only [hps] at hx
            injection hx
          | false =>
            simp only [hc4] at hx
            cases hc5 : strContains s "processors" with
            | true =>
              simp only [hc5] at hx
              have hps : pySub (jstr s) "processors" = .error .typeError := rfl
              simp only [hps] at hx
              injection hx
            | false =>
              simp only [hc5] at hx
              rw [hx] at hf
              injection hf with hf
              subst hf
              exact Nat.le_refl _
  | jarr xs =>
    rw [parseFlowChain] at hx
    cases hc1 : arrHasStr xs "flowContents" with
    | true =>
      simp only [pyContains, hc1] at hx
      have hps : pySub (jarr xs) "flowContents" = .error .typeError := rfl
      simp only [hps] at hx
      injection hx
    | false =>
      simp only [pyContains, hc1] at hx
      cases hc2 : arrHasStr xs "processGroupFlow" with
      | true =>
        simp only [hc2] at hx
        have hps : pySub (jarr xs) "processGroupFlow" = .error .typeError := rfl
        simp only [hps] at hx
        injection hx
      | false =>
        simp only [hc2] at hx
        cases hc3 : arrHasStr xs "versionedFlowSnapshot" with
        | true =>
          simp only [hc3] at hx
          have hps : pySub (jarr xs) "versionedFlowSnapshot" = .error .typeError := rfl
          simp only [hps] at hx
          injection hx
        | false =>
          simp only [hc3] at hx
          cases hc4 : arrHasStr xs "flow" with
          | true =>
            simp only [hc4] at hx
            have hps : pySub (jarr xs) "flow" = .error .typeError := rfl
            simp only [hps] at hx
            injection hx
          | false =>
            simp only [hc4] at hx
            cases hc5 : arrHasStr xs "processors" with
            | true =>
              simp only [hc5] at hx
              have hps : pySub (jarr xs) "processors" = .error .typeError := rfl
              simp only [hps] at hx
              injection hx
            | false =>
              simp only [hc5] at hx
              rw [hx] at hf
              injection hf with hf
              subst hf
              exact Nat.le_refl _
  | jobj fs =>
    rw [parseFlowChain] at hx
    cases hc1 : containsObj fs "flowContents" with
    | true =>
      simp only [pyContains, hc1] at hx
      rcases contains_exists hc1 with ⟨g, hg⟩
      have hps : pySub (jobj fs) "flowContents" = .ok g := by rw [pySub, hg]
      simp only [hps] at hx
      rcases find_desc_step fs "root" "flowContents" g fsr (by decide) hg hf
        with ⟨sub, hsub, hlen⟩
      have h2 := extract_le_find g (jstr "Root") ("root" ++ "." ++ "flowContents")
        rs sub hx hsub
      omega
    | false =>
      simp only [pyContains, hc1] at hx
      cases hc2 : containsObj fs "processGroupFlow" with
      | true =>
        simp only [hc2] at hx
        rcases contains_exists hc2 with ⟨pgf, hpgf⟩
        have hps : pySub (jobj fs) "processGroupFlow" = .ok pgf := by rw [pySub, hpgf]
        simp only [hps] at hx
        cases hps2 : pySub pgf "flow" with
        | error e => simp only [hps2] at hx; injection hx
        | ok fc =>
          simp only [hps2] at hx
          rcases pySub_ok_obj pgf "flow" fc hps2 with ⟨po, hpo, hlf⟩
          subst hpo
          rcases find_desc_step fs "root" "processGroupFlow" (jobj po) fsr
            (by decide) hpgf hf with ⟨sub1, hsub1, hlen1⟩
          rcases find_desc_step po ("root" ++ "." ++ "processGroupFlow") "flow"
            fc sub1 (by decide) hlf hsub1 with ⟨sub2, hsub2, hlen2⟩
          have h2 := extract_le_find fc (jstr "Root") _ rs sub2 hx hsub2
          omega
      | false =>
        simp only [hc2] at hx
        cases hc3 : containsObj fs "versionedFlowSnapshot" with
        | true =>
          simp only [hc3] at hx
          rcases contains_exists hc3 with ⟨vfs, hvfs⟩
          have hps : pySub (jobj fs) "versionedFlowSnapshot" = .ok vfs := by
            rw [pySub, hvfs]
          simp only [hps] at hx
          cases hps2 : pySub vfs "flowContents" with
          | error e => simp only [hps2] at hx; injection hx
          | ok fc =>
            simp only [hps2] at hx
            rcases pySub_ok_obj vfs "flowContents" fc hps2 with ⟨vo, hvo, hlf⟩
            subst hvo
            rcases find_desc_step fs "root" "versionedFlowSnapshot" (jobj vo) fsr
              (by decide) hvfs hf with ⟨sub1, hsub1, hlen1⟩
            rcases find_desc_step vo ("root" ++ "." ++ "versionedFlowSnapshot")
              "flowContents" fc sub1 (by decide) hlf hsub1 with ⟨sub2, hsub2, hlen2⟩
            have h2 := extract_le_find fc (jstr "Root") _ rs sub2 hx hsub2
            omega
        | false =>
          simp only [hc3] at hx
          cases hc4 : containsObj fs "flow" with
          | true =>
            simp only [hc4] at hx
            rcases contains_exists hc4 with ⟨fc, hfc⟩
            have hps : pySub (jobj fs) "flow" = .ok fc := by rw [pySub, hfc]
            simp only [hps] at hx
            rcases find_desc_step fs "root" "flow" fc fsr (by decide) hfc hf
              with ⟨sub, hsub, hlen⟩
            have h2 := extract_le_find fc (jstr "Root") ("root" ++ "." ++ "flow")
              rs sub hx hsub
            omega
          | false =>
            simp only [hc4] at hx
            cases hc5 : containsObj fs "processors" with
            | true =>
              simp only [hc5] at hx
              rcases contains_exists hc5 with ⟨v, hv⟩
              have hps : pySub (jobj fs) "processors" = .ok v := by rw [pySub, hv]
              simp only [hps] at hx
              have hpp : procPart fs (jstr "Root") = .ok rs := by
                rw [procPart, if_pos hc5, hv]; exact hx
              rw [find_processors_recursively] at hf
              cases hfp : findProcsHere fs "root" with
              | error e => simp only [hfp] at hf; injection hf
              | ok ps2 =>
                simp only [hfp] at hf
                cases hfo : findObj fs "root" with
                | error e => simp only [hfo] at hf; injection hf
                | ok rest =>
                  simp only [hfo] at hf
                  injection hf with hf
                  have hlen : rs.length = ps2.length :=
                    procPart_len_eq fs (jstr "Root") "root" rs ps2 hpp hfp
                  rw [← hf]
                  simp only [List.length_append]
                  omega
            | false =>
              simp only [hc5] at hx
              rw [hx] at hf
              injection hf with hf
              subst hf
              exact Nat.le_refl _

/-- C8, witness: on a well-shaped one-processor `flowContents` document the
structured dispatch chain finds one record and the fallback finds one
record. -/
theorem c8_structured_le_fallback_witness :
    parseFlowChain (jobj docC8wObj) = .ok [emptyRec "Root"] ∧
    find_processors_recursively (jobj docC8wObj) "root" =
      .ok [emptyRec "root.flowContents"] ∧
    ([emptyRec "Root"] : List ProcRec).length ≤
      [emptyRec "root.flowContents"].length := by
  refine ⟨by decide, by decide, ?_⟩
  exact c8_structured_le_fallback (jobj docC8wObj) _ _ (by decide) (by decide)

end NiFi
